import Mathlib

/-! Mine-sweeper board: a shallow embedding of `js/classes/board/board.js`.

The JavaScript `Board` class owns a grid of mutable `Cell` objects.  The embedding
keeps the grid as a list of rows, and represents a reference to a cell object by the
position `(row, column)` at which the object is stored in the grid.  Every method that
mutates cells through references becomes a function from boards to boards; reads made
through a reference are made against the current board, as they are in JavaScript.
-/

namespace MineSweeper

/-! ## Cell -/

/-- Modelled from the spec: the `Cell` class (`js/classes/cell/cell.js`) is imported by
`board.js` but is not among the sources.  Section 3 of the specification gives its
fields: the coordinates fixed at creation, `isMine`, `surroundingMinesCount`, `isShown`
and `isHint`; a new cell has all flags false and a count of zero. -/
structure Cell where
  rowIdx : Nat
  columnIdx : Nat
  isMine : Bool := false
  surroundingMinesCount : Nat := 0
  isShown : Bool := false
  isHint : Bool := false
deriving DecidableEq, Repr

/-- Modelled from the spec: the partial state handed to `Cell.setState`; an absent key is
`none`.  `board.js` only ever passes the keys `isShown` and `isHint`. -/
structure PartialState where
  isShown : Option Bool := none
  isHint : Option Bool := none
deriving DecidableEq, Repr

namespace Cell

/-- Modelled from the spec: the `coords` accessor of `Cell`, read by `board.js` as
`const { rowIdx, columnIdx } = cell.coords`. -/
def coords (cell : Cell) : Nat × Nat := (cell.rowIdx, cell.columnIdx)

/-- Modelled from the spec: `Cell.setState(partialState)`, the merge-mutator of section 6:
the keys present in the partial state are overwritten, the others are kept. -/
def setState (cell : Cell) (st : PartialState) : Cell :=
  { cell with
    isShown := st.isShown.getD cell.isShown
    isHint := st.isHint.getD cell.isHint }

/-- Modelled from the spec: `Cell.incrementSurroundingMinesCount()`, the mutator that
adds one to the count (section 6). -/
def incrementSurroundingMinesCount (cell : Cell) : Cell :=
  { cell with surroundingMinesCount := cell.surroundingMinesCount + 1 }

/-- Modelled from the spec: `Cell.clone()`, which produces an independent copy carrying
the full state; a value of the embedding is its own copy. -/
def clone (cell : Cell) : Cell := cell

end Cell

/-! ## Board -/

/-- A reference to a cell object of the grid: the row and column at which it is stored. -/
abbrev CellRef := Nat × Nat

/-- The `Board` object: `sqrt`, `hintDuration` and the grid `board`. -/
structure Board where
  sqrt : Nat
  hintDuration : Nat
  board : List (List Cell)
deriving DecidableEq, Repr

/-- The ways in which a call can end without a board. -/
inductive BoardError where
  /-- A JavaScript `TypeError`: a property was read from `undefined`. -/
  | typeError
  /-- An `Error` thrown by the argument checks, with its message. -/
  | invalid (msg : String)
  /-- The recursion budget of the embedding was used up. -/
  | outOfFuel
deriving DecidableEq, Repr

/-- The flags of `#getSurroundingCells`, both `false` by default. -/
structure SurroundingOptions where
  excludeTargetCell : Bool := false
  excludeDiagonalCells : Bool := false
deriving DecidableEq, Repr

namespace Board

/-- The expression `board[rowIdx][columnIdx]`; `none` stands for `undefined` (or for the
`TypeError` of indexing an `undefined` row, which every caller turns into an error). -/
def cellAt (b : Board) (rowIdx columnIdx : Nat) : Option Cell :=
  match b.board[rowIdx]? with
  | none => none
  | some row => row[columnIdx]?

/-- A mutation of the cell object behind a reference. -/
def modifyCell (b : Board) (ref : CellRef) (f : Cell → Cell) : Board :=
  { b with board := b.board.modify (fun row => row.modify f ref.2) ref.1 }

/-- The method `setBoard`, as a function of `sqrt`: row `rowIdx` holds the new cells
`Cell({rowIdx, columnIdx})` for `columnIdx` from `0` to `sqrt - 1`. -/
def setBoard (sqrt : Nat) : List (List Cell) :=
  (List.range sqrt).map fun rowIdx =>
    (List.range sqrt).map fun columnIdx => ({ rowIdx := rowIdx, columnIdx := columnIdx } : Cell)

/-- The constructor, for a numeric side length (`hintDuration` defaults to 2500 at the
call site).  `!boardSqrt` turns `0` away first, then membership in `{8, 12, 16}`. -/
def new (boardSqrt : Nat) (hintDuration : Nat) : Except BoardError Board :=
  if boardSqrt = 0 then .error (.invalid "boardSqrt is required")
  else if boardSqrt ∉ [8, 12, 16] then .error (.invalid "Invalid boardSqrt")
  else .ok { sqrt := boardSqrt, hintDuration := hintDuration, board := setBoard boardSqrt }

/-- The method `loopThroughCells`: the callback runs once per cell, rows in order and the
cells of a row in order.  The callback of the embedding threads an accumulator and
receives, with the cell, the reference under which the grid stores it. -/
def loopThroughCells {σ : Type} (b : Board) (callback : σ → CellRef → Cell → σ) (init : σ) : σ :=
  b.board.enum.foldl
    (fun acc row => row.2.enum.foldl (fun acc x => callback acc (row.1, x.1) x.2) acc) init

/-- The closure `isLegitCell` of `#getSurroundingCells`.  The comparisons are made on
integers, as `targetRowIdx - 1` is `-1` for a target in row `0`. -/
def isLegitCell (targetRowIdx targetColumnIdx : Nat) (opts : SurroundingOptions)
    (rowIdx columnIdx : Nat) : Bool :=
  let isSurroundingCell :=
    decide ((rowIdx : Int) ≥ (targetRowIdx : Int) - 1) &&
    decide ((rowIdx : Int) ≤ (targetRowIdx : Int) + 1) &&
    decide ((columnIdx : Int) ≥ (targetColumnIdx : Int) - 1) &&
    decide ((columnIdx : Int) ≤ (targetColumnIdx : Int) + 1)
  isSurroundingCell &&
    (!opts.excludeTargetCell || (rowIdx != targetRowIdx && columnIdx != targetColumnIdx)) &&
    (!opts.excludeDiagonalCells || rowIdx == targetRowIdx || columnIdx == targetColumnIdx)

/-- The private method `#getSurroundingCells`: the references of the cells whose own
coordinates pass `isLegitCell`, pushed in the order of `loopThroughCells`. -/
def getSurroundingCells (b : Board) (targetRowIdx targetColumnIdx : Nat)
    (opts : SurroundingOptions) : List CellRef :=
  b.loopThroughCells
    (fun surroundingCells ref cell =>
      if !isLegitCell targetRowIdx targetColumnIdx opts cell.coords.1 cell.coords.2 then
        surroundingCells
      else surroundingCells ++ [ref])
    []

/-- The method `setSurroundingMineCount`: every surrounding cell that is not a mine has
its count incremented. -/
def setSurroundingMineCount (b : Board) (targetRowIdx targetColumnIdx : Nat) : Board :=
  let surroundingCells := b.getSurroundingCells targetRowIdx targetColumnIdx {}
  surroundingCells.foldl
    (fun b ref =>
      b.modifyCell ref fun cell =>
        if cell.isMine then cell else cell.incrementSurroundingMinesCount)
    b

/-- The callback of the first `forEach` of `setRandomMines`:
`const cell = this.board[rowIdx][columnIdx]; cell.isMine = true`.  Reading a row outside
the grid is a `TypeError`, and so is setting `isMine` on an `undefined` cell. -/
def markMine (b : Board) (rc : CellRef) : Except BoardError Board :=
  match b.cellAt rc.1 rc.2 with
  | none => .error .typeError
  | some _ => .ok (b.modifyCell rc fun cell => { cell with isMine := true })

/-- The method `setRandomMines`.  The random utility `getRandomUniqueNumbers` of
`js/utils/utils.js` is not among the sources and is taken as a parameter. -/
def setRandomMines (b : Board) (minesCount : Nat)
    (getRandomUniqueNumbers : Nat → Nat → List Nat) : Except BoardError Board :=
  if minesCount ∉ [12, 30, 64] then .error (.invalid "Invalid minesCount")
  else
    let boardSqrt := b.sqrt
    let totalCells := boardSqrt ^ 2
    let randomCoords : List CellRef :=
      (getRandomUniqueNumbers totalCells minesCount).map fun randomCoord =>
        (randomCoord / boardSqrt, randomCoord % boardSqrt)
    match randomCoords.foldlM markMine b with
    | .error e => .error e
    | .ok b1 =>
      .ok (randomCoords.foldl (fun b rc => b.setSurroundingMineCount rc.1 rc.2) b1)

/-- The callback of the `forEach` of `revealSurroundingTargetCells`, with the method
itself passed as `recurse`.  The cell behind the reference is read from the current
board at the moment the loop reaches it, so it sees the marks left by the earlier
iterations and their recursive calls.  A reference always addresses a cell; the `none`
branch is there for the type only. -/
def revealCell (recurse : Board → Nat → Nat → Except BoardError Board) (b : Board)
    (ref : CellRef) : Except BoardError Board :=
  match b.cellAt ref.1 ref.2 with
  | none => .error .typeError
  | some cell =>
    let isRecurse := cell.surroundingMinesCount == 0 && !cell.isShown
    if cell.isMine then .ok b
    else
      let b1 := b.modifyCell ref fun cell => cell.setState { isShown := some true }
      if !isRecurse then .ok b1
      else recurse b1 cell.coords.1 cell.coords.2

/-- The method `revealSurroundingTargetCells`.  The first argument bounds the depth of
the recursion: a call needs one unit for itself and hands the rest to the calls it makes.
Reading the target cell outside the grid is a `TypeError`. -/
def revealSurroundingTargetCells :
    Nat → Board → Nat → Nat → Except BoardError Board
  | 0, _, _, _ => .error .outOfFuel
  | fuel + 1, b, targetRowIdx, targetColumnIdx =>
    match b.cellAt targetRowIdx targetColumnIdx with
    | none => .error .typeError
    | some targetCell =>
      if targetCell.surroundingMinesCount != 0 || targetCell.isMine then .ok b
      else
        let surroundingCells :=
          b.getSurroundingCells targetRowIdx targetColumnIdx { excludeDiagonalCells := true }
        surroundingCells.foldlM (revealCell (revealSurroundingTargetCells fuel)) b

/-- The synchronous part of `handleHintCellClick`: the hinted references are captured,
and every hinted cell that is not shown becomes shown and hint.  The result carries the
captured list, which the timer closure `hideCells` keeps. -/
def handleHintCellClick (b : Board) (targetRowIdx targetColumnIdx : Nat) :
    Board × List CellRef :=
  let hintedCells := b.getSurroundingCells targetRowIdx targetColumnIdx {}
  (hintedCells.foldl
      (fun b ref =>
        b.modifyCell ref fun cell =>
          if cell.isShown then cell
          else cell.setState { isShown := some true, isHint := some true })
      b,
    hintedCells)

/-- The closure `hideCells` that the timer of `handleHintCellClick` runs: every captured
cell that is flagged hint at that moment is reset to not shown and not hint. -/
def hideCells (b : Board) (hintedCells : List CellRef) : Board :=
  hintedCells.foldl
    (fun b ref =>
      b.modifyCell ref fun cell =>
        if !cell.isHint then cell
        else cell.setState { isShown := some false, isHint := some false })
    b

/-! ## Vocabulary of the statements -/

/-- The cells of the grid with their references, rows in order and the cells of a row in
order: the sequence that `loopThroughCells` visits. -/
def cells (b : Board) : List (CellRef × Cell) :=
  b.board.enum.flatMap fun row => row.2.enum.map fun x => ((row.1, x.1), x.2)

/-- The data-model invariant `grid[r][c].coordinates == (r, c)` on a `sqrt × sqrt` grid:
a cell is stored at `(r, c)` exactly when both indices are below `sqrt`, and it carries
the coordinates `(r, c)`. -/
def WellFormed (b : Board) : Prop :=
  ∀ r c, (b.cellAt r c).map Cell.coords = if r < b.sqrt ∧ c < b.sqrt then some (r, c) else none

/-- Row-major order on references: ascending row, then ascending column. -/
def rowMajorLt (p q : CellRef) : Prop := p.1 < q.1 ∨ (p.1 = q.1 ∧ p.2 < q.2)

/-- Row distance and column distance both at most one (the 3×3 block around `p`). -/
def near (p q : CellRef) : Prop :=
  p.1 ≤ q.1 + 1 ∧ q.1 ≤ p.1 + 1 ∧ p.2 ≤ q.2 + 1 ∧ q.2 ≤ p.2 + 1

instance (p q : CellRef) : Decidable (near p q) := by unfold near; infer_instance

/-- Orthogonal adjacency: same row and neighbouring columns, or same column and
neighbouring rows. -/
def orthAdj (p q : CellRef) : Prop :=
  (p.1 = q.1 ∧ (p.2 + 1 = q.2 ∨ q.2 + 1 = p.2)) ∨
  (p.2 = q.2 ∧ (p.1 + 1 = q.1 ∨ q.1 + 1 = p.1))

instance (p q : CellRef) : Decidable (orthAdj p q) := by unfold orthAdj; infer_instance

/-- The number of neighbours of `(r, c)` in the grid (row and column distance at most one,
the position itself left out) whose cell is a mine. -/
def neighbourMines (b : Board) (r c : Nat) : Nat :=
  (b.cells.filter fun x => x.2.isMine && decide (near (r, c) x.1) && decide (x.1 ≠ (r, c))).length

/-- The cell stored at `p` is shown. -/
def ShownAt (b : Board) (p : CellRef) : Prop :=
  ∃ cell, b.cellAt p.1 p.2 = some cell ∧ cell.isShown = true

/-- A cell is stored at `p` and it is not a mine. -/
def SafeAt (b : Board) (p : CellRef) : Prop :=
  ∃ cell, b.cellAt p.1 p.2 = some cell ∧ cell.isMine = false

/-- A cell is stored at `p`, it is not a mine and its count is zero. -/
def BlankAt (b : Board) (p : CellRef) : Prop :=
  ∃ cell, b.cellAt p.1 p.2 = some cell ∧ cell.isMine = false ∧ cell.surroundingMinesCount = 0

/-- Every cell orthogonally adjacent to `p` that is not a mine is shown. -/
def Expanded (b : Board) (p : CellRef) : Prop :=
  ∀ q, orthAdj p q → SafeAt b q → ShownAt b q

/-- The positions reachable from `t` through a path of orthogonally adjacent zero-count
cells that are not mines (`t` itself included when it is such a cell). -/
inductive BlankReach (b : Board) (t : CellRef) : CellRef → Prop
  | start : BlankAt b t → BlankReach b t t
  | step {p q : CellRef} : BlankReach b t p → orthAdj p q → BlankAt b q → BlankReach b t q

/-- The board `b'` differs from `b` at most in that some cells which are not mines and
were not shown are now shown: sizes, coordinates, mines, counts and hint flags agree. -/
def ShownOnly (b b' : Board) : Prop :=
  b'.sqrt = b.sqrt ∧ b'.hintDuration = b.hintDuration ∧
    ∀ r c, ∃ s : Bool, b'.cellAt r c =
      (b.cellAt r c).map fun cell => { cell with isShown := cell.isShown || (s && !cell.isMine) }

/-- What a call of `revealSurroundingTargetCells` on target `t` achieves from `b` to `b'`:
only shown flags of cells that are not mines were turned on; every zero-count cell that
became shown has all its orthogonal neighbours that are not mines shown; and when the
target is a zero-count cell that is not a mine, it is shown and so are its orthogonal
neighbours that are not mines. -/
def RevealPost (b : Board) (t : CellRef) (b' : Board) : Prop :=
  ShownOnly b b' ∧
    (∀ p, BlankAt b p → ¬ ShownAt b p → ShownAt b' p → Expanded b' p) ∧
    (BlankAt b t → ShownAt b' t ∧ Expanded b' t)

/-- The number of cells of the grid that are not shown. -/
def unshownCount (b : Board) : Nat :=
  (b.cells.filter fun x => !x.2.isShown).length

/-- The part of a cell that mine placement fixes and that no later operation may change:
the coordinates, `isMine` and `surroundingMinesCount`. -/
def fixedPart (cell : Cell) : Nat × Nat × Bool × Nat :=
  (cell.rowIdx, cell.columnIdx, cell.isMine, cell.surroundingMinesCount)

/-! ## Argument values of the constructor -/

end Board

/-- A JavaScript number, as far as the argument checks can tell numbers apart: a finite
value (a rational stands for it; `-0` is `0`), `NaN`, or an infinity. -/
inductive JsNumber where
  | finite (q : Rat)
  | nan
  | infinity (negative : Bool)
deriving DecidableEq

/-- A JavaScript value handed to the constructor as `boardSqrt`; `undefined` is also what
an omitted argument is. -/
inductive JsValue where
  | undefined
  | null
  | bool (v : Bool)
  | number (x : JsNumber)
  | string (s : String)
  | object
deriving DecidableEq

/-- Truthiness, as `!boardSqrt` tests it: `undefined`, `null`, `false`, `0`, `NaN` and the
empty string are falsy. -/
def JsValue.truthy : JsValue → Bool
  | .undefined => false
  | .null => false
  | .bool v => v
  | .number (.finite q) => decide (q ≠ 0)
  | .number .nan => false
  | .number (.infinity _) => true
  | .string s => decide (s ≠ "")
  | .object => true

namespace Board

/-- The constructor on an arbitrary argument value: `!boardSqrt`, then
`typeof boardSqrt !== 'number'`, then `validSqrts.has(boardSqrt)` for the set
`{8, 12, 16}`; an omitted `hintDuration` is 2500. -/
def construct (boardSqrt : JsValue) (hintDuration : Option Nat) : Except BoardError Board :=
  if !boardSqrt.truthy then .error (.invalid "boardSqrt is required")
  else
    match boardSqrt with
    | .number x =>
      match [8, 12, 16].find? fun n : Nat => decide (x = .finite (n : Rat)) with
      | none => .error (.invalid "Invalid boardSqrt")
      | some n =>
        .ok { sqrt := n, hintDuration := hintDuration.getD 2500, board := setBoard n }
    | _ => .error (.invalid "boardSqrt must be a number")

/-! ## Effects that the result of a call does not show -/

/-- What a call of `setRandomMines` leaves behind: the board as it stands when the call
ends, the error it threw if it threw, and the calls it made to the random utility (the
population size and the count of each call). -/
structure MinesEffect where
  board : Board
  thrown : Option BoardError
  randomCalls : List (Nat × Nat)

/-- The first `forEach` of `setRandomMines` on the live board: the loop stops at the
first `TypeError`, and the cells marked before it stay marked. -/
def markMines (b : Board) : List CellRef → Board × Option BoardError
  | [] => (b, none)
  | rc :: rest =>
    match markMine b rc with
    | .error e => (b, some e)
    | .ok b1 => markMines b1 rest

/-- The method `setRandomMines` with its effects: the check of `minesCount` comes before
the call of the random utility and before any cell is touched. -/
def setRandomMinesEffect (b : Board) (minesCount : Nat)
    (getRandomUniqueNumbers : Nat → Nat → List Nat) : MinesEffect :=
  if minesCount ∉ [12, 30, 64] then
    { board := b, thrown := some (.invalid "Invalid minesCount"), randomCalls := [] }
  else
    let boardSqrt := b.sqrt
    let totalCells := boardSqrt ^ 2
    let randomCoords : List CellRef :=
      (getRandomUniqueNumbers totalCells minesCount).map fun randomCoord =>
        (randomCoord / boardSqrt, randomCoord % boardSqrt)
    match markMines b randomCoords with
    | (b1, some e) =>
      { board := b1, thrown := some e, randomCalls := [(totalCells, minesCount)] }
    | (b1, none) =>
      { board := randomCoords.foldl (fun b rc => b.setSurroundingMineCount rc.1 rc.2) b1,
        thrown := none, randomCalls := [(totalCells, minesCount)] }

/-- The callback `revealCell` with the calls of `cell.render(rowIdx, columnIdx)` recorded:
the state is the board together with the coordinates rendered so far, in order. -/
def revealCellLog (recurse : Board → Nat → Nat → Except BoardError (Board × List CellRef))
    (st : Board × List CellRef) (ref : CellRef) : Except BoardError (Board × List CellRef) :=
  match st.1.cellAt ref.1 ref.2 with
  | none => .error .typeError
  | some cell =>
    let isRecurse := cell.surroundingMinesCount == 0 && !cell.isShown
    if cell.isMine then .ok st
    else
      let b1 := st.1.modifyCell ref fun cell => cell.setState { isShown := some true }
      let rendered := st.2 ++ [cell.coords]
      if !isRecurse then .ok (b1, rendered)
      else
        match recurse b1 cell.coords.1 cell.coords.2 with
        | .error e => .error e
        | .ok (b2, more) => .ok (b2, rendered ++ more)

/-- The method `revealSurroundingTargetCells` with the render calls recorded: the result
is the board and the coordinates of the cells rendered by the call, in order. -/
def revealSurroundingTargetCellsLog :
    Nat → Board → Nat → Nat → Except BoardError (Board × List CellRef)
  | 0, _, _, _ => .error .outOfFuel
  | fuel + 1, b, targetRowIdx, targetColumnIdx =>
    match b.cellAt targetRowIdx targetColumnIdx with
    | none => .error .typeError
    | some targetCell =>
      if targetCell.surroundingMinesCount != 0 || targetCell.isMine then .ok (b, [])
      else
        let surroundingCells :=
          b.getSurroundingCells targetRowIdx targetColumnIdx { excludeDiagonalCells := true }
        surroundingCells.foldlM (revealCellLog (revealSurroundingTargetCellsLog fuel)) (b, [])

/-- The positions a reveal at `t` may newly show: the cells that are not mines and that
are the target, or a zero-count cell reachable from the target through orthogonally
adjacent zero-count cells that are not mines, or orthogonally adjacent to such a cell. -/
def InRevealRegion (b : Board) (t p : CellRef) : Prop :=
  SafeAt b p ∧ (p = t ∨ BlankReach b t p ∨ ∃ z, BlankReach b t z ∧ orthAdj z p)

/-! ## The game as a transition system -/

/-- The state that the operations of a game act on: the board, and the captured lists of
the hint timers that have been set and have not fired yet. -/
structure GameState where
  board : Board
  timers : List (List CellRef)

/-- One operation on the game state.  A call of `setRandomMines` leaves the board of its
effect, whether it threw or not.  A call of `revealSurroundingTargetCells` that returns
leaves its result; one that throws does so on reading the target, before any cell is
touched.  The show step of a hint sets a timer with the captured list; a timer that
fires runs `hideCells` on its list and is gone. -/
inductive Step : GameState → GameState → Prop
  | setRandomMines (s : GameState) (minesCount : Nat) (rnd : Nat → Nat → List Nat) :
      Step s { s with board := (s.board.setRandomMinesEffect minesCount rnd).board }
  | reveal (s : GameState) (fuel tr tc : Nat) (b' : Board) :
      s.board.revealSurroundingTargetCells fuel tr tc = .ok b' →
      Step s { s with board := b' }
  | hintShow (s : GameState) (tr tc : Nat) :
      Step s { board := (s.board.handleHintCellClick tr tc).1,
               timers := s.timers ++ [(s.board.handleHintCellClick tr tc).2] }
  | hintHide (s : GameState) (i : Nat) (hintedCells : List CellRef) :
      s.timers[i]? = some hintedCells →
      Step s { board := s.board.hideCells hintedCells, timers := s.timers.eraseIdx i }

/-- The states reachable from a newly constructed board by any sequence of operations. -/
inductive Reachable : GameState → Prop
  | init (boardSqrt : JsValue) (hintDuration : Option Nat) (b : Board) :
      construct boardSqrt hintDuration = .ok b → Reachable { board := b, timers := [] }
  | step {s s' : GameState} : Reachable s → Step s s' → Reachable s'

/-! ## Cell objects and their addresses -/

end Board

/-- Modelled from the spec: the store of `Cell` objects.  An object is known by its
address, its index in the store; a new object is appended, and nothing else changes the
store but a mutation of the object at an address. -/
abbrev CellStore := List Cell

/-- A `Board` instance whose grid `board` holds the addresses of its cell objects. -/
structure BoardObject where
  sqrt : Nat
  hintDuration : Nat
  board : List (List Nat)

namespace BoardObject

/-- The address held at row `r`, column `c` of the grid. -/
def addressAt (o : BoardObject) (r c : Nat) : Option Nat :=
  match o.board[r]? with
  | none => none
  | some row => row[c]?

/-- The state of the cell object that the grid holds at row `r`, column `c`. -/
def cellAt (o : BoardObject) (store : CellStore) (r c : Nat) : Option Cell :=
  match o.addressAt r c with
  | none => none
  | some a => store[a]?

/-- The board value that the instance shows: every address replaced by the state of its
object. -/
def read (o : BoardObject) (store : CellStore) : Board :=
  { sqrt := o.sqrt, hintDuration := o.hintDuration,
    board := o.board.map fun row => row.filterMap fun a => store[a]? }

/-- Modelled from the spec: `row.map(cell => cell.clone())` on addresses.  `Cell.clone()`
makes a new object with the state of the original (section 6), so each clone is appended
to the store and its address goes into the new row; `none` is the `TypeError` of cloning
an `undefined` cell. -/
def cloneRow (store : CellStore) : List Nat → Option (CellStore × List Nat)
  | [] => some (store, [])
  | a :: rest =>
    match store[a]? with
    | none => none
    | some cell =>
      match cloneRow (store ++ [cell.clone]) rest with
      | none => none
      | some (store', rest') => some (store', store.length :: rest')

/-- The expression `this.board.map(row => row.map(cell => cell.clone()))` on addresses. -/
def cloneRows (store : CellStore) : List (List Nat) → Option (CellStore × List (List Nat))
  | [] => some (store, [])
  | row :: rows =>
    match cloneRow store row with
    | none => none
    | some (store₁, row') =>
      match cloneRows store₁ rows with
      | none => none
      | some (store₂, rows') => some (store₂, row' :: rows')

/-- The method `clone`: `new Board(this.sqrt, this.hintDuration)` runs the argument checks
and creates the cells of a new grid, which the assignment to `newBoard.board` at once
replaces by the grid of clones. -/
def clone (o : BoardObject) (store : CellStore) : Except BoardError (CellStore × BoardObject) :=
  match Board.new o.sqrt o.hintDuration with
  | .error e => .error e
  | .ok newBoard =>
    match cloneRows (store ++ newBoard.board.flatten) o.board with
    | none => .error .typeError
    | some (store', grid) =>
      .ok (store', { sqrt := newBoard.sqrt, hintDuration := newBoard.hintDuration,
                     board := grid })

/-- The states `cells` stored into the objects at the addresses `row`, one by one. -/
def writeRow (store : CellStore) : List Nat → List Cell → CellStore
  | a :: rest, cell :: cells => writeRow (store.set a cell) rest cells
  | _, _ => store

/-- The states of a grid of cells stored into the objects of a grid of addresses. -/
def writeRows (store : CellStore) : List (List Nat) → List (List Cell) → CellStore
  | row :: rows, cells :: grid => writeRows (writeRow store row cells) rows grid
  | _, _ => store

/-- The store after the cell objects of the instance have taken the states of the board
value `b`, position by position: what a method of the instance leaves behind when `b` is
the board it computes. -/
def write (o : BoardObject) (store : CellStore) (b : Board) : CellStore :=
  writeRows store o.board b.board

/-- The method `revealSurroundingTargetCells` run on the instance: the method reads and
mutates cell objects only through the grid of the instance. -/
def revealSurroundingTargetCells (o : BoardObject) (store : CellStore) (fuel tr tc : Nat) :
    Except BoardError CellStore :=
  match (o.read store).revealSurroundingTargetCells fuel tr tc with
  | .error e => .error e
  | .ok b' => .ok (o.write store b')

/-- The show step of `handleHintCellClick` run on the instance. -/
def handleHintCellClick (o : BoardObject) (store : CellStore) (tr tc : Nat) :
    CellStore × List CellRef :=
  (o.write store ((o.read store).handleHintCellClick tr tc).1,
    ((o.read store).handleHintCellClick tr tc).2)

/-- The timer closure `hideCells` run on the instance. -/
def hideCells (o : BoardObject) (store : CellStore) (hintedCells : List CellRef) : CellStore :=
  o.write store ((o.read store).hideCells hintedCells)

/-- The store and the instance that `new Board(sqrt, hintDuration)` makes from nothing
(for valid arguments): the cells of `setBoard`, row by row, at the addresses 0, 1, 2, ... -/
def fresh (sqrt hintDuration : Nat) : CellStore × BoardObject :=
  ((Board.setBoard sqrt).flatten,
    { sqrt := sqrt, hintDuration := hintDuration,
      board := (List.range sqrt).map fun r => (List.range sqrt).map fun c => r * sqrt + c })

end BoardObject

/-! ## Basic facts about the grid -/

namespace Board

theorem cellAt_modifyCell (b : Board) (ref : CellRef) (f : Cell → Cell) (r c : Nat) :
    (b.modifyCell ref f).cellAt r c =
      if ref = (r, c) then (b.cellAt r c).map f else b.cellAt r c := by
  obtain ⟨i, j⟩ := ref
  simp only [cellAt, modifyCell, List.getElem?_modify, Prod.mk.injEq]
  cases h : b.board[r]? with
  | none => simp
  | some row =>
    by_cases hi : i = r
    · by_cases hj : j = c <;> simp [hi, hj, List.getElem?_modify]
    · simp [hi]

theorem modifyCell_sqrt (b : Board) (ref : CellRef) (f : Cell → Cell) :
    (b.modifyCell ref f).sqrt = b.sqrt := rfl

theorem mem_cells {b : Board} {x : CellRef × Cell} :
    x ∈ b.cells ↔ b.cellAt x.1.1 x.1.2 = some x.2 := by
  obtain ⟨⟨i, j⟩, cell⟩ := x
  simp only [cells, List.mem_flatMap, List.mem_map, Prod.mk.injEq, cellAt]
  constructor
  · rintro ⟨⟨i', row⟩, hrow, ⟨j', cell'⟩, hcell, ⟨rfl, rfl⟩, rfl⟩
    rw [List.mk_mem_enum_iff_getElem?] at hrow hcell
    simp [hrow, hcell]
  · intro h
    cases hrow : b.board[i]? with
    | none => simp [hrow] at h
    | some row =>
      simp only [hrow] at h
      exact ⟨(i, row), List.mk_mem_enum_iff_getElem?.2 hrow, (j, cell),
        List.mk_mem_enum_iff_getElem?.2 h, ⟨rfl, rfl⟩, rfl⟩

theorem cells_pairwise (b : Board) :
    (b.cells.map Prod.fst).Pairwise rowMajorLt := by
  unfold cells
  rw [List.pairwise_map, List.pairwise_flatMap]
  constructor
  · rintro ⟨i, row⟩ _
    rw [List.pairwise_map]
    have h := List.pairwise_lt_range row.length
    rw [← List.enum_map_fst, List.pairwise_map] at h
    exact h.imp fun hlt => Or.inr ⟨rfl, hlt⟩
  · have h := List.pairwise_lt_range b.board.length
    rw [← List.enum_map_fst, List.pairwise_map] at h
    refine h.imp ?_
    intro x y hlt p hp q hq
    simp only [List.mem_map] at hp hq
    obtain ⟨_, _, rfl⟩ := hp
    obtain ⟨_, _, rfl⟩ := hq
    exact Or.inl hlt

theorem rowMajorLt_irrefl (p : CellRef) : ¬ rowMajorLt p p := by
  unfold rowMajorLt; omega

theorem cells_refs_nodup (b : Board) : (b.cells.map Prod.fst).Nodup := by
  refine (cells_pairwise b).imp ?_
  intro p q h heq
  subst heq
  exact rowMajorLt_irrefl _ h

theorem loopThroughCells_eq_foldl {σ : Type} (b : Board) (callback : σ → CellRef → Cell → σ)
    (init : σ) :
    b.loopThroughCells callback init = b.cells.foldl (fun acc x => callback acc x.1 x.2) init := by
  unfold loopThroughCells cells
  rw [List.flatMap_def, List.foldl_flatten, List.foldl_map]
  congr 1
  funext acc row
  rw [List.foldl_map]

theorem getSurroundingCells_eq (b : Board) (tr tc : Nat) (opts : SurroundingOptions) :
    b.getSurroundingCells tr tc opts =
      (b.cells.filter fun x => isLegitCell tr tc opts x.2.coords.1 x.2.coords.2).map Prod.fst := by
  unfold getSurroundingCells
  rw [loopThroughCells_eq_foldl]
  have key : ∀ (l : List (CellRef × Cell)) (acc : List CellRef),
      l.foldl (fun acc x =>
          if !isLegitCell tr tc opts x.2.coords.1 x.2.coords.2 then acc else acc ++ [x.1]) acc =
        acc ++ (l.filter fun x => isLegitCell tr tc opts x.2.coords.1 x.2.coords.2).map
          Prod.fst := by
    intro l
    induction l with
    | nil => intro acc; simp
    | cons x l ih =>
      intro acc
      rw [List.foldl_cons, ih]
      cases h : isLegitCell tr tc opts x.2.coords.1 x.2.coords.2 <;> simp [List.filter_cons, h]
  simpa using key b.cells []

/-! ## Well-formed boards -/

theorem WellFormed.cellAt_of_lt {b : Board} (h : b.WellFormed) {r c : Nat}
    (hr : r < b.sqrt) (hc : c < b.sqrt) :
    ∃ cell, b.cellAt r c = some cell ∧ cell.rowIdx = r ∧ cell.columnIdx = c := by
  have h1 := h r c
  rw [if_pos ⟨hr, hc⟩] at h1
  cases hcell : b.cellAt r c with
  | none => simp [hcell] at h1
  | some cell =>
    simp only [hcell, Option.map_some', Option.some.injEq, Cell.coords, Prod.mk.injEq] at h1
    exact ⟨cell, rfl, h1.1, h1.2⟩

theorem WellFormed.of_cellAt {b : Board} (h : b.WellFormed) {r c : Nat} {cell : Cell}
    (hcell : b.cellAt r c = some cell) :
    r < b.sqrt ∧ c < b.sqrt ∧ cell.rowIdx = r ∧ cell.columnIdx = c := by
  have h1 := h r c
  rw [hcell] at h1
  by_cases hlt : r < b.sqrt ∧ c < b.sqrt
  · rw [if_pos hlt] at h1
    simp only [Option.map_some', Option.some.injEq, Cell.coords, Prod.mk.injEq] at h1
    exact ⟨hlt.1, hlt.2, h1.1, h1.2⟩
  · rw [if_neg hlt] at h1
    simp at h1

theorem WellFormed.modifyCell {b : Board} (h : b.WellFormed) (ref : CellRef) (f : Cell → Cell)
    (hf : ∀ cell, (f cell).coords = cell.coords) : (b.modifyCell ref f).WellFormed := by
  intro r c
  rw [cellAt_modifyCell, modifyCell_sqrt, ← h r c]
  split
  · cases b.cellAt r c <;> simp [hf]
  · rfl

theorem cellAt_setBoard (sqrt hd r c : Nat) :
    (Board.mk sqrt hd (setBoard sqrt)).cellAt r c =
      if r < sqrt ∧ c < sqrt then some { rowIdx := r, columnIdx := c } else none := by
  simp only [cellAt, setBoard]
  by_cases hr : r < sqrt
  · by_cases hc : c < sqrt
    · simp [hr, hc, List.getElem?_map, List.getElem?_range]
    · have hc2 : sqrt ≤ c := Nat.le_of_not_lt hc
      simp [hr, hc, hc2, List.getElem?_map, List.getElem?_range]
  · have hr2 : (List.range sqrt)[r]? = none :=
      List.getElem?_eq_none (by simpa using Nat.le_of_not_lt hr)
    simp [hr, hr2]

theorem wellFormed_setBoard (sqrt hd : Nat) : (Board.mk sqrt hd (setBoard sqrt)).WellFormed := by
  intro r c
  rw [cellAt_setBoard]
  split <;> simp [Cell.coords]

theorem new_eq_ok {boardSqrt hd : Nat} {b : Board} (h : Board.new boardSqrt hd = .ok b) :
    b = Board.mk boardSqrt hd (setBoard boardSqrt) ∧ boardSqrt ∈ [8, 12, 16] := by
  unfold Board.new at h
  split at h
  · cases h
  · split at h
    · cases h
    · rename_i h1 h2
      simp only [Except.ok.injEq] at h
      refine ⟨h.symm, ?_⟩
      simp only [List.mem_cons, List.mem_singleton, List.not_mem_nil, or_false] at h2 ⊢
      omega

/-! ## The neighbourhood query -/

theorem mem_getSurroundingCells {b : Board} (h : b.WellFormed) (tr tc : Nat)
    (opts : SurroundingOptions) (p : CellRef) :
    p ∈ b.getSurroundingCells tr tc opts ↔
      p.1 < b.sqrt ∧ p.2 < b.sqrt ∧ isLegitCell tr tc opts p.1 p.2 = true := by
  rw [getSurroundingCells_eq]
  simp only [List.mem_map, List.mem_filter, mem_cells]
  constructor
  · rintro ⟨⟨q, cell⟩, ⟨hcell, hlegit⟩, rfl⟩
    simp only at hcell hlegit ⊢
    obtain ⟨hr, hc, h1, h2⟩ := h.of_cellAt hcell
    simp only [Cell.coords, h1, h2] at hlegit
    exact ⟨hr, hc, hlegit⟩
  · rintro ⟨hr, hc, hlegit⟩
    obtain ⟨cell, hcell, h1, h2⟩ := h.cellAt_of_lt hr hc
    exact ⟨(p, cell), ⟨hcell, by simpa [Cell.coords, h1, h2] using hlegit⟩, rfl⟩

theorem getSurroundingCells_sublist (b : Board) (tr tc : Nat) (opts : SurroundingOptions) :
    (b.getSurroundingCells tr tc opts).Sublist (b.cells.map Prod.fst) := by
  rw [getSurroundingCells_eq]
  exact (List.filter_sublist _).map _

theorem getSurroundingCells_nodup (b : Board) (tr tc : Nat) (opts : SurroundingOptions) :
    (b.getSurroundingCells tr tc opts).Nodup :=
  (cells_refs_nodup b).sublist (getSurroundingCells_sublist b tr tc opts)

theorem isLegitCell_default (tr tc r c : Nat) :
    isLegitCell tr tc {} r c = true ↔ near (tr, tc) (r, c) := by
  simp only [isLegitCell, near, Bool.and_eq_true, decide_eq_true_eq, Bool.not_false,
    Bool.true_or, Bool.and_true, Bool.or_eq_true, Bool.not_eq_true']
  omega

theorem isLegitCell_orthogonal (tr tc r c : Nat) :
    isLegitCell tr tc { excludeDiagonalCells := true } r c = true ↔
      ((r, c) = (tr, tc) ∨ orthAdj (tr, tc) (r, c)) := by
  simp only [isLegitCell, orthAdj, Bool.and_eq_true, decide_eq_true_eq, Bool.not_false,
    Bool.true_or, Bool.and_true, Bool.or_eq_true, Bool.not_true, Bool.false_or, beq_iff_eq,
    Prod.mk.injEq]
  omega

theorem isLegitCell_excludeTarget (tr tc r c : Nat) :
    isLegitCell tr tc { excludeTargetCell := true } r c = true ↔
      (near (tr, tc) (r, c) ∧ r ≠ tr ∧ c ≠ tc) := by
  simp only [isLegitCell, near, Bool.and_eq_true, decide_eq_true_eq, Bool.not_false,
    Bool.true_or, Bool.and_true, Bool.or_eq_true, Bool.not_true, Bool.false_or, bne_iff_ne,
    ne_eq]
  omega

/-! ## Mutating the cells behind a list of references -/

theorem cellAt_foldl_modifyCell (f : Cell → Cell) (refs : List CellRef) (hnd : refs.Nodup)
    (b : Board) (r c : Nat) :
    (refs.foldl (fun b ref => b.modifyCell ref f) b).cellAt r c =
      if (r, c) ∈ refs then (b.cellAt r c).map f else b.cellAt r c := by
  induction refs generalizing b with
  | nil => simp
  | cons ref refs ih =>
    rw [List.nodup_cons] at hnd
    rw [List.foldl_cons, ih hnd.2, cellAt_modifyCell]
    by_cases h1 : ref = (r, c)
    · subst h1
      simp [hnd.1]
    · have h2 : ¬ (r, c) = ref := fun e => h1 e.symm
      simp [h1, h2]

theorem foldl_modifyCell_sqrt (f : Cell → Cell) (refs : List CellRef) (b : Board) :
    (refs.foldl (fun b ref => b.modifyCell ref f) b).sqrt = b.sqrt := by
  induction refs generalizing b with
  | nil => rfl
  | cons ref refs ih => rw [List.foldl_cons, ih]; rfl

/-! ## Claims about the neighbourhood query -/

/-- C8: on a well-formed board, for an in-range target `(tr, tc)`, `getSurroundingCells`
with the default flags returns exactly the grid positions at row distance and column
distance at most one from the target (the target among them), each once, in row-major
order. -/
theorem getSurroundingCells_default_spec (b : Board) (h : b.WellFormed) (tr tc : Nat)
    (htr : tr < b.sqrt) (htc : tc < b.sqrt) :
    (∀ p : CellRef, p ∈ b.getSurroundingCells tr tc {} ↔
        (p.1 < b.sqrt ∧ p.2 < b.sqrt ∧ near (tr, tc) p)) ∧
      (tr, tc) ∈ b.getSurroundingCells tr tc {} ∧
      (b.getSurroundingCells tr tc {}).Nodup ∧
      (b.getSurroundingCells tr tc {}).Pairwise rowMajorLt := by
  have hmem : ∀ p : CellRef, p ∈ b.getSurroundingCells tr tc {} ↔
      (p.1 < b.sqrt ∧ p.2 < b.sqrt ∧ near (tr, tc) p) := by
    intro p
    rw [mem_getSurroundingCells h, isLegitCell_default]
  refine ⟨hmem, (hmem _).2 ⟨htr, htc, ?_⟩, getSurroundingCells_nodup _ _ _ _,
    (cells_pairwise b).sublist (getSurroundingCells_sublist _ _ _ _)⟩
  simp [near]

theorem getSurroundingCells_default_spec_witness :
    (0, 7) ∈ (Board.mk 8 2500 (setBoard 8)).getSurroundingCells 0 7 {} ∧
      ((Board.mk 8 2500 (setBoard 8)).getSurroundingCells 0 7 {}).Nodup :=
  have h := getSurroundingCells_default_spec (Board.mk 8 2500 (setBoard 8))
    (wellFormed_setBoard 8 2500) 0 7 (by decide) (by decide)
  ⟨h.2.1, h.2.2.1⟩

/-- C9: on a well-formed board, for an in-range target `(tr, tc)`, `getSurroundingCells`
with `excludeDiagonalCells` set returns exactly the grid positions among the target and
its four orthogonal neighbours `(tr-1, tc)`, `(tr, tc-1)`, `(tr, tc+1)`, `(tr+1, tc)`;
these are the positions of the clipped 3×3 block that share the target's row or column. -/
theorem getSurroundingCells_orthogonal_spec (b : Board) (h : b.WellFormed) (tr tc : Nat)
    (htr : tr < b.sqrt) (htc : tc < b.sqrt) :
    (∀ p : CellRef, p ∈ b.getSurroundingCells tr tc { excludeDiagonalCells := true } ↔
        (p.1 < b.sqrt ∧ p.2 < b.sqrt ∧
          (p = (tr, tc) ∨ (p.1 + 1 = tr ∧ p.2 = tc) ∨ (p.1 = tr ∧ p.2 + 1 = tc) ∨
            (p.1 = tr ∧ p.2 = tc + 1) ∨ (p.1 = tr + 1 ∧ p.2 = tc)))) ∧
      (∀ p : CellRef, p ∈ b.getSurroundingCells tr tc { excludeDiagonalCells := true } ↔
        (p.1 < b.sqrt ∧ p.2 < b.sqrt ∧ near (tr, tc) p ∧ (p.1 = tr ∨ p.2 = tc))) ∧
      (tr, tc) ∈ b.getSurroundingCells tr tc { excludeDiagonalCells := true } := by
  have hmem : ∀ p : CellRef, p ∈ b.getSurroundingCells tr tc { excludeDiagonalCells := true } ↔
      (p.1 < b.sqrt ∧ p.2 < b.sqrt ∧ (p = (tr, tc) ∨ orthAdj (tr, tc) p)) := by
    intro p
    rw [mem_getSurroundingCells h, isLegitCell_orthogonal]
  refine ⟨?_, ?_, (hmem _).2 ⟨htr, htc, Or.inl rfl⟩⟩
  · intro p
    rw [hmem]
    obtain ⟨r, c⟩ := p
    simp only [orthAdj, Prod.mk.injEq]
    omega
  · intro p
    rw [hmem]
    obtain ⟨r, c⟩ := p
    simp only [orthAdj, near, Prod.mk.injEq]
    omega

theorem getSurroundingCells_orthogonal_spec_witness :
    (3, 3) ∈ (Board.mk 8 2500 (setBoard 8)).getSurroundingCells 3 3
      { excludeDiagonalCells := true } :=
  (getSurroundingCells_orthogonal_spec (Board.mk 8 2500 (setBoard 8))
    (wellFormed_setBoard 8 2500) 3 3 (by decide) (by decide)).2.2

/-- C6, as the code has it: with `excludeTargetCell` set, every returned position lies in
the clipped 3×3 block, every position of the block that differs from the target in both
row and column is returned, and the target itself is never returned. -/
theorem getSurroundingCells_excludeTarget_spec (b : Board) (h : b.WellFormed) (tr tc : Nat) :
    (∀ p ∈ b.getSurroundingCells tr tc { excludeTargetCell := true },
        p.1 < b.sqrt ∧ p.2 < b.sqrt ∧ near (tr, tc) p) ∧
      (∀ p : CellRef, p.1 < b.sqrt → p.2 < b.sqrt → near (tr, tc) p → p.1 ≠ tr → p.2 ≠ tc →
        p ∈ b.getSurroundingCells tr tc { excludeTargetCell := true }) ∧
      (tr, tc) ∉ b.getSurroundingCells tr tc { excludeTargetCell := true } := by
  have hmem : ∀ p : CellRef, p ∈ b.getSurroundingCells tr tc { excludeTargetCell := true } ↔
      (p.1 < b.sqrt ∧ p.2 < b.sqrt ∧ near (tr, tc) p ∧ p.1 ≠ tr ∧ p.2 ≠ tc) := by
    intro p
    rw [mem_getSurroundingCells h, isLegitCell_excludeTarget]
  refine ⟨?_, ?_, ?_⟩
  · intro p hp
    obtain ⟨h1, h2, h3, _⟩ := (hmem p).1 hp
    exact ⟨h1, h2, h3⟩
  · intro p h1 h2 h3 h4 h5
    exact (hmem p).2 ⟨h1, h2, h3, h4, h5⟩
  · intro hp
    exact ((hmem _).1 hp).2.2.2.1 rfl

theorem getSurroundingCells_excludeTarget_spec_witness :
    (1, 1) ∉ (Board.mk 8 2500 (setBoard 8)).getSurroundingCells 1 1
      { excludeTargetCell := true } :=
  (getSurroundingCells_excludeTarget_spec (Board.mk 8 2500 (setBoard 8))
    (wellFormed_setBoard 8 2500) 1 1).2.2

/-- C6 as stated fails: on the new 8×8 board, the in-range target `(1, 1)` is not in the
result of `getSurroundingCells` with `excludeTargetCell` set, and neither is `(1, 2)`,
which shares the target's row: the flag keeps the four diagonal positions only. -/
theorem getSurroundingCells_excludeTarget_drops_target :
    (1, 1) ∉ (Board.mk 8 2500 (setBoard 8)).getSurroundingCells 1 1
        { excludeTargetCell := true } ∧
      (Board.mk 8 2500 (setBoard 8)).getSurroundingCells 1 1 { excludeTargetCell := true } =
        [(0, 0), (0, 2), (2, 0), (2, 2)] := by
  decide

/-! ## The hint -/

theorem cellAt_handleHintCellClick {b : Board} (h : b.WellFormed) (tr tc r c : Nat) :
    (b.handleHintCellClick tr tc).1.cellAt r c =
      (b.cellAt r c).map fun cell =>
        if near (tr, tc) (r, c) ∧ cell.isShown = false then
          { cell with isShown := true, isHint := true }
        else cell := by
  unfold handleHintCellClick
  simp only
  rw [cellAt_foldl_modifyCell _ _ (getSurroundingCells_nodup _ _ _ _)]
  have hm := mem_getSurroundingCells h tr tc {} (r, c)
  rw [isLegitCell_default] at hm
  cases hcell : b.cellAt r c with
  | none => simp
  | some cell =>
    obtain ⟨hr, hc, _, _⟩ := h.of_cellAt hcell
    by_cases hn : near (tr, tc) (r, c)
    · have hin := hm.2 ⟨hr, hc, hn⟩
      cases hs : cell.isShown <;> simp [hin, hn, hs, Cell.setState]
    · have hout : (r, c) ∉ b.getSurroundingCells tr tc {} := fun hin => hn (hm.1 hin).2.2
      simp [hout, hn]

/-- C10: on a well-formed board, the show step of `handleHintCellClick` turns exactly the
not-yet-shown cells of the target's clipped 3×3 neighbourhood into shown hint cells and
leaves every other cell as it was, so that afterwards every cell of the neighbourhood is
shown; the captured list is the full neighbourhood. -/
theorem handleHintCellClick_show_spec (b : Board) (h : b.WellFormed) (tr tc : Nat) :
    (∀ r c, (b.handleHintCellClick tr tc).1.cellAt r c =
        (b.cellAt r c).map fun cell =>
          if near (tr, tc) (r, c) ∧ cell.isShown = false then
            { cell with isShown := true, isHint := true }
          else cell) ∧
      (∀ r c cell, near (tr, tc) (r, c) →
        (b.handleHintCellClick tr tc).1.cellAt r c = some cell → cell.isShown = true) ∧
      (∀ p : CellRef, p ∈ (b.handleHintCellClick tr tc).2 ↔
        (p.1 < b.sqrt ∧ p.2 < b.sqrt ∧ near (tr, tc) p)) := by
  refine ⟨cellAt_handleHintCellClick h tr tc, ?_, ?_⟩
  · intro r c cell hn hcell
    rw [cellAt_handleHintCellClick h] at hcell
    cases hold : b.cellAt r c with
    | none => simp [hold] at hcell
    | some old =>
      simp only [hold, Option.map_some', Option.some.injEq] at hcell
      subst hcell
      cases hs : old.isShown <;> simp [hn, hs]
  · intro p
    show p ∈ b.getSurroundingCells tr tc {} ↔ _
    rw [mem_getSurroundingCells h, isLegitCell_default]

theorem handleHintCellClick_show_spec_witness :
    (((Board.mk 8 2500 (setBoard 8)).handleHintCellClick 0 0).1.cellAt 1 1 =
        some { rowIdx := 1, columnIdx := 1, isShown := true, isHint := true }) ∧
      (((Board.mk 8 2500 (setBoard 8)).handleHintCellClick 0 0).1.cellAt 2 2 =
        some { rowIdx := 2, columnIdx := 2 }) := by
  have h := (handleHintCellClick_show_spec (Board.mk 8 2500 (setBoard 8))
    (wellFormed_setBoard 8 2500) 0 0).1
  constructor
  · rw [h 1 1]; decide
  · rw [h 2 2]; decide

/-! ## Mine placement -/

theorem foldlM_markMine {b : Board} (h : b.WellFormed) (refs : List CellRef)
    (hin : ∀ p ∈ refs, p.1 < b.sqrt ∧ p.2 < b.sqrt) :
    refs.foldlM markMine b =
      .ok (refs.foldl (fun b rc => b.modifyCell rc fun cell => { cell with isMine := true }) b) := by
  induction refs generalizing b with
  | nil => rfl
  | cons p refs ih =>
    obtain ⟨hr, hc⟩ := hin p (List.mem_cons_self _ _)
    obtain ⟨cell, hcell, _, _⟩ := h.cellAt_of_lt hr hc
    have hstep : markMine b p = .ok (b.modifyCell p fun cell => { cell with isMine := true }) := by
      simp [markMine, hcell]
    rw [List.foldlM_cons, hstep, List.foldl_cons]
    exact ih (h.modifyCell _ _ fun _ => rfl) fun q hq => hin q (List.mem_cons_of_mem _ hq)

theorem cellAt_setSurroundingMineCount {b : Board} (h : b.WellFormed) (tr tc r c : Nat) :
    (b.setSurroundingMineCount tr tc).cellAt r c =
      (b.cellAt r c).map fun cell =>
        if near (tr, tc) (r, c) ∧ cell.isMine = false then cell.incrementSurroundingMinesCount
        else cell := by
  unfold setSurroundingMineCount
  simp only
  rw [cellAt_foldl_modifyCell _ _ (getSurroundingCells_nodup _ _ _ _)]
  have hm := mem_getSurroundingCells h tr tc {} (r, c)
  rw [isLegitCell_default] at hm
  cases hcell : b.cellAt r c with
  | none => simp
  | some cell =>
    obtain ⟨hr, hc, _, _⟩ := h.of_cellAt hcell
    by_cases hn : near (tr, tc) (r, c)
    · have hin := hm.2 ⟨hr, hc, hn⟩
      cases hs : cell.isMine <;> simp [hin, hn, hs]
    · have hout : (r, c) ∉ b.getSurroundingCells tr tc {} := fun hin => hn (hm.1 hin).2.2
      simp [hout, hn]

theorem setSurroundingMineCount_sqrt (b : Board) (tr tc : Nat) :
    (b.setSurroundingMineCount tr tc).sqrt = b.sqrt := by
  unfold setSurroundingMineCount
  exact foldl_modifyCell_sqrt _ _ _

theorem WellFormed.setSurroundingMineCount {b : Board} (h : b.WellFormed) (tr tc : Nat) :
    (b.setSurroundingMineCount tr tc).WellFormed := by
  intro r c
  rw [cellAt_setSurroundingMineCount h, setSurroundingMineCount_sqrt, ← h r c]
  cases b.cellAt r c with
  | none => rfl
  | some cell =>
    simp only [Option.map_some', Option.some.injEq]
    split <;> rfl

theorem foldl_setSurroundingMineCount_sqrt (mines : List CellRef) (b : Board) :
    (mines.foldl (fun b rc => b.setSurroundingMineCount rc.1 rc.2) b).sqrt = b.sqrt := by
  induction mines generalizing b with
  | nil => rfl
  | cons m mines ih => rw [List.foldl_cons, ih, setSurroundingMineCount_sqrt]

theorem cellAt_foldl_setSurroundingMineCount (mines : List CellRef) {b : Board}
    (h : b.WellFormed) (r c : Nat) :
    (mines.foldl (fun b rc => b.setSurroundingMineCount rc.1 rc.2) b).cellAt r c =
      (b.cellAt r c).map fun cell =>
        if cell.isMine then cell
        else { cell with
          surroundingMinesCount := cell.surroundingMinesCount +
            (mines.filter fun m => decide (near m (r, c))).length } := by
  induction mines generalizing b with
  | nil =>
    rw [List.foldl_nil]
    cases b.cellAt r c with
    | none => rfl
    | some cell => cases hm : cell.isMine <;> simp [hm]
  | cons m mines ih =>
    rw [List.foldl_cons, ih (h.setSurroundingMineCount _ _), cellAt_setSurroundingMineCount h]
    cases b.cellAt r c with
    | none => rfl
    | some cell =>
      by_cases hn : near m (r, c)
      · cases hm : cell.isMine <;>
          simp [hn, hm, List.filter_cons, Cell.incrementSurroundingMinesCount]
        omega
      · cases hm : cell.isMine <;> simp [hn, hm, List.filter_cons]

theorem length_eq_of_mem_iff {α : Type} {l₁ l₂ : List α} (h₁ : l₁.Nodup) (h₂ : l₂.Nodup)
    (h : ∀ a, a ∈ l₁ ↔ a ∈ l₂) : l₁.length = l₂.length :=
  ((List.perm_ext_iff_of_nodup h₁ h₂).2 h).length_eq

theorem filter_cells_refs_nodup (b : Board) (P : CellRef × Cell → Bool) :
    ((b.cells.filter P).map Prod.fst).Nodup :=
  (cells_refs_nodup b).sublist ((List.filter_sublist _).map _)

theorem mem_filter_cells_refs (b : Board) (P : CellRef × Cell → Bool) (q : CellRef) :
    q ∈ (b.cells.filter P).map Prod.fst ↔
      ∃ cell, b.cellAt q.1 q.2 = some cell ∧ P (q, cell) = true := by
  simp only [List.mem_map, List.mem_filter, mem_cells]
  constructor
  · rintro ⟨⟨q', cell⟩, ⟨hcell, hP⟩, rfl⟩
    exact ⟨cell, hcell, hP⟩
  · rintro ⟨cell, hcell, hP⟩
    exact ⟨(q, cell), ⟨hcell, hP⟩, rfl⟩

theorem coordsOf_injective {S : Nat} (i j : Nat)
    (h : (i / S, i % S) = (j / S, j % S)) : i = j := by
  simp only [Prod.mk.injEq] at h
  rw [← Nat.div_add_mod i S, ← Nat.div_add_mod j S, h.1, h.2]

theorem coordsOf_lt {S i : Nat} (h : i < S * S) : i / S < S ∧ i % S < S := by
  have hS : 0 < S := by
    rcases Nat.eq_zero_or_pos S with h0 | h0
    · subst h0; simp at h
    · exact h0
  exact ⟨Nat.div_lt_of_lt_mul h, Nat.mod_lt _ hS⟩

/-- What `setRandomMines` leaves on a new board when the random utility hands back
distinct in-range indices: the indexed cells are mines with count zero, and every other
cell counts the indices whose position is within distance one. -/
theorem setRandomMines_new (S hd M : Nat) (rnd : Nat → Nat → List Nat)
    (hM : M ∈ [12, 30, 64]) (hnd : (rnd (S ^ 2) M).Nodup)
    (hlt : ∀ i ∈ rnd (S ^ 2) M, i < S * S) :
    ∃ b', (Board.mk S hd (setBoard S)).setRandomMines M rnd = .ok b' ∧ b'.sqrt = S ∧
      b'.WellFormed ∧
      ((rnd (S ^ 2) M).map fun i => (i / S, i % S)).Nodup ∧
      ∀ r c, b'.cellAt r c =
        if r < S ∧ c < S then
          some (if (r, c) ∈ (rnd (S ^ 2) M).map (fun i => (i / S, i % S)) then
            { rowIdx := r, columnIdx := c, isMine := true }
          else
            { rowIdx := r, columnIdx := c,
              surroundingMinesCount :=
                (((rnd (S ^ 2) M).map fun i => (i / S, i % S)).filter
                  fun m => decide (near m (r, c))).length })
        else none := by
  have hwf := wellFormed_setBoard S hd
  have hLnd : ((rnd (S ^ 2) M).map fun i => (i / S, i % S)).Nodup :=
    hnd.map_on fun i _ j _ hij => coordsOf_injective i j hij
  have hLin : ∀ p ∈ (rnd (S ^ 2) M).map (fun i => (i / S, i % S)),
      p.1 < (Board.mk S hd (setBoard S)).sqrt ∧ p.2 < (Board.mk S hd (setBoard S)).sqrt := by
    intro p hp
    obtain ⟨i, hi, rfl⟩ := List.mem_map.1 hp
    exact coordsOf_lt (hlt i hi)
  have hmark := foldlM_markMine hwf _ hLin
  have hwf1 : (((rnd (S ^ 2) M).map fun i => (i / S, i % S)).foldl
      (fun b rc => b.modifyCell rc fun cell => { cell with isMine := true })
      (Board.mk S hd (setBoard S))).WellFormed := by
    intro r c
    rw [cellAt_foldl_modifyCell _ _ hLnd, foldl_modifyCell_sqrt, ← hwf r c]
    split
    · cases (Board.mk S hd (setBoard S)).cellAt r c <;> rfl
    · rfl
  have hset : (Board.mk S hd (setBoard S)).setRandomMines M rnd =
      .ok (((rnd (S ^ 2) M).map fun i => (i / S, i % S)).foldl
        (fun b rc => b.setSurroundingMineCount rc.1 rc.2)
        (((rnd (S ^ 2) M).map fun i => (i / S, i % S)).foldl
          (fun b rc => b.modifyCell rc fun cell => { cell with isMine := true })
          (Board.mk S hd (setBoard S)))) := by
    unfold setRandomMines
    rw [if_neg (not_not.2 hM)]
    simp only [hmark]
  refine ⟨_, hset, ?_, ?_, hLnd, ?_⟩
  · rw [foldl_setSurroundingMineCount_sqrt, foldl_modifyCell_sqrt]
  · intro r c
    rw [cellAt_foldl_setSurroundingMineCount _ hwf1, foldl_setSurroundingMineCount_sqrt,
      ← hwf1 r c]
    cases (List.foldl (fun b rc => b.modifyCell rc fun cell => { cell with isMine := true })
      (Board.mk S hd (setBoard S)) ((rnd (S ^ 2) M).map fun i => (i / S, i % S))).cellAt r c with
    | none => rfl
    | some cell =>
      simp only [Option.map_some', Option.some.injEq]
      split <;> rfl
  · intro r c
    rw [cellAt_foldl_setSurroundingMineCount _ hwf1, cellAt_foldl_modifyCell _ _ hLnd,
      cellAt_setBoard]
    by_cases hrc : r < S ∧ c < S
    · by_cases hmem : (r, c) ∈ (rnd (S ^ 2) M).map (fun i => (i / S, i % S))
      · simp only [hrc, hmem]
        simp
      · simp only [hrc, hmem]
        simp
    · simp [hrc]

theorem setRandomMines_new_cells (S hd M : Nat) (rnd : Nat → Nat → List Nat)
    (hM : M ∈ [12, 30, 64]) (hnd : (rnd (S ^ 2) M).Nodup)
    (hlt : ∀ i ∈ rnd (S ^ 2) M, i < S * S) :
    ∃ b', (Board.mk S hd (setBoard S)).setRandomMines M rnd = .ok b' ∧ b'.sqrt = S ∧
      b'.WellFormed ∧
      ((rnd (S ^ 2) M).map fun i => (i / S, i % S)).Nodup ∧
      ∀ r c cell, b'.cellAt r c = some cell →
        (cell.isMine = true ↔ (r, c) ∈ (rnd (S ^ 2) M).map (fun i => (i / S, i % S))) ∧
        (cell.isMine = false → cell.surroundingMinesCount =
          (((rnd (S ^ 2) M).map fun i => (i / S, i % S)).filter
            fun m => decide (near m (r, c))).length) := by
  obtain ⟨b', hset, hsq, hwf, hLnd, hcells⟩ := setRandomMines_new S hd M rnd hM hnd hlt
  refine ⟨b', hset, hsq, hwf, hLnd, ?_⟩
  intro r c cell hcell
  rw [hcells r c] at hcell
  by_cases hrc : r < S ∧ c < S
  · rw [if_pos hrc] at hcell
    by_cases hmem : (r, c) ∈ (rnd (S ^ 2) M).map (fun i => (i / S, i % S))
    · rw [if_pos hmem] at hcell
      simp only [Option.some.injEq] at hcell
      subst hcell
      simp [hmem]
    · rw [if_neg hmem] at hcell
      simp only [Option.some.injEq] at hcell
      subst hcell
      simp [hmem]
  · rw [if_neg hrc] at hcell
    cases hcell

/-! ## Claims about mine placement -/

/-- C1: on a newly constructed board of side `S` (so `S` is 8, 12 or 16), for a mine count
`M` in {12, 30, 64}, if the random utility returns `M` pairwise distinct indices below
`S * S`, then `setRandomMines` succeeds, exactly `M` cells of the result are mines, a cell
is a mine exactly when its position is `(i / S, i % S)` for a returned index `i`, and every
returned index addresses a mine. -/
theorem setRandomMines_places_mines (S hd M : Nat) (b : Board) (rnd : Nat → Nat → List Nat)
    (hb : Board.new S hd = .ok b) (hM : M ∈ [12, 30, 64])
    (hlen : (rnd (S ^ 2) M).length = M) (hnd : (rnd (S ^ 2) M).Nodup)
    (hlt : ∀ i ∈ rnd (S ^ 2) M, i < S * S) :
    ∃ b', b.setRandomMines M rnd = .ok b' ∧
      (b'.cells.filter fun x => x.2.isMine).length = M ∧
      (∀ r c cell, b'.cellAt r c = some cell →
        (cell.isMine = true ↔ ∃ i ∈ rnd (S ^ 2) M, (r, c) = (i / S, i % S))) ∧
      (∀ i ∈ rnd (S ^ 2) M, ∃ cell, b'.cellAt (i / S) (i % S) = some cell ∧
        cell.isMine = true) := by
  obtain ⟨rfl, _⟩ := new_eq_ok hb
  obtain ⟨b', hset, hsq, hwf, hLnd, hcells⟩ := setRandomMines_new_cells S hd M rnd hM hnd hlt
  have hidx : ∀ i ∈ rnd (S ^ 2) M, ∃ cell, b'.cellAt (i / S) (i % S) = some cell ∧
      cell.isMine = true := by
    intro i hi
    obtain ⟨h1, h2⟩ := coordsOf_lt (hlt i hi)
    rw [← hsq] at h1 h2
    obtain ⟨cell, hcell, _, _⟩ := hwf.cellAt_of_lt h1 h2
    rw [hsq] at hcell
    exact ⟨cell, hcell, ((hcells _ _ cell hcell).1).2 (List.mem_map.2 ⟨i, hi, rfl⟩)⟩
  refine ⟨b', hset, ?_, ?_, hidx⟩
  · rw [← hlen, ← List.length_map (rnd (S ^ 2) M) (fun i => (i / S, i % S)),
      ← List.length_map (b'.cells.filter fun x => x.2.isMine) Prod.fst]
    refine length_eq_of_mem_iff (filter_cells_refs_nodup _ _) hLnd ?_
    intro q
    rw [mem_filter_cells_refs]
    constructor
    · rintro ⟨cell, hcell, hm⟩
      exact ((hcells _ _ cell hcell).1).1 hm
    · intro hq
      obtain ⟨i, hi, rfl⟩ := List.mem_map.1 hq
      exact hidx i hi
  · intro r c cell hcell
    rw [(hcells r c cell hcell).1, List.mem_map]
    constructor
    · rintro ⟨i, hi, h⟩
      exact ⟨i, hi, h.symm⟩
    · rintro ⟨i, hi, h⟩
      exact ⟨i, hi, h.symm⟩

theorem setRandomMines_places_mines_witness :
    ∃ b', (Board.mk 8 2500 (setBoard 8)).setRandomMines 12 (fun _ count => List.range count) =
        .ok b' ∧
      (b'.cells.filter fun x => x.2.isMine).length = 12 := by
  obtain ⟨b', h1, h2, _⟩ := setRandomMines_places_mines 8 2500 12 (Board.mk 8 2500 (setBoard 8))
    (fun _ count => List.range count) rfl (by decide) (by simp) (List.nodup_range 12)
    (by intro i hi; have := List.mem_range.1 hi; omega)
  exact ⟨b', h1, h2⟩

theorem near_symm {p q : CellRef} : near p q ↔ near q p := by
  unfold near; omega

/-- C2: on a newly constructed board of side `S`, for a mine count `M` in {12, 30, 64}, if
the random utility returns distinct indices below `S * S`, then after `setRandomMines`
every cell that is not a mine has a `surroundingMinesCount` equal to the number of its
neighbours in the grid (row and column distance at most one, diagonals included) that are
mines.  A mine at linear index 0 of a board of side 8 lies at `(0, 0)`, and its pass of
`setSurroundingMineCount` adds exactly one to each of `(0, 1)`, `(1, 0)` and `(1, 1)` that
is not a mine. -/
theorem setRandomMines_counts_neighbours (S hd M : Nat) (b : Board)
    (rnd : Nat → Nat → List Nat)
    (hb : Board.new S hd = .ok b) (hM : M ∈ [12, 30, 64])
    (hnd : (rnd (S ^ 2) M).Nodup) (hlt : ∀ i ∈ rnd (S ^ 2) M, i < S * S) :
    (∃ b', b.setRandomMines M rnd = .ok b' ∧
      ∀ r c cell, b'.cellAt r c = some cell → cell.isMine = false →
        cell.surroundingMinesCount = b'.neighbourMines r c) ∧
    (∀ b8 : Board, b8.WellFormed → b8.sqrt = 8 →
      ∀ p ∈ [((0, 1) : CellRef), (1, 0), (1, 1)], ∀ cell, b8.cellAt p.1 p.2 = some cell →
        cell.isMine = false →
        (b8.setSurroundingMineCount (0 / 8) (0 % 8)).cellAt p.1 p.2 =
          some { cell with surroundingMinesCount := cell.surroundingMinesCount + 1 }) := by
  constructor
  · obtain ⟨rfl, _⟩ := new_eq_ok hb
    obtain ⟨b', hset, hsq, hwf, hLnd, hcells⟩ :=
      setRandomMines_new_cells S hd M rnd hM hnd hlt
    refine ⟨b', hset, ?_⟩
    intro r c cell hcell hnot
    rw [(hcells r c cell hcell).2 hnot]
    unfold neighbourMines
    rw [← List.length_map (b'.cells.filter _) Prod.fst]
    refine length_eq_of_mem_iff (hLnd.filter _) (filter_cells_refs_nodup _ _) ?_
    intro q
    rw [mem_filter_cells_refs, List.mem_filter]
    have hrc : (r, c) ∉ (rnd (S ^ 2) M).map (fun i => (i / S, i % S)) := by
      intro hin
      have := ((hcells r c cell hcell).1).2 hin
      rw [hnot] at this
      cases this
    constructor
    · rintro ⟨hq, hn⟩
      obtain ⟨i, hi, rfl⟩ := List.mem_map.1 hq
      obtain ⟨h1, h2⟩ := coordsOf_lt (hlt i hi)
      rw [← hsq] at h1 h2
      obtain ⟨qc, hqc, _, _⟩ := hwf.cellAt_of_lt h1 h2
      rw [hsq] at hqc
      refine ⟨qc, hqc, ?_⟩
      have hmine := ((hcells _ _ qc hqc).1).2 hq
      have hne : (i / S, i % S) ≠ (r, c) := fun e => hrc (e ▸ hq)
      have hn2 : near (r, c) (i / S, i % S) := near_symm.1 (of_decide_eq_true hn)
      simp [hmine, hn2, hne]
    · rintro ⟨qc, hqc, hP⟩
      simp only [Bool.and_eq_true, decide_eq_true_eq] at hP
      exact ⟨((hcells _ _ qc hqc).1).1 hP.1.1, decide_eq_true (near_symm.1 hP.1.2)⟩
  · intro b8 hwf _ p hp cell hcell hnot
    rw [cellAt_setSurroundingMineCount hwf, hcell]
    have hn : near (0 / 8, 0 % 8) (p.1, p.2) := by
      simp only [List.mem_cons, List.mem_singleton, List.not_mem_nil, or_false] at hp
      rcases hp with rfl | rfl | rfl <;> decide
    simp only [Option.map_some']
    rw [if_pos ⟨hn, hnot⟩]
    rfl

theorem setRandomMines_counts_neighbours_witness :
    ∃ b', (Board.mk 8 2500 (setBoard 8)).setRandomMines 12 (fun _ count => List.range count) =
        .ok b' ∧
      ∀ r c cell, b'.cellAt r c = some cell → cell.isMine = false →
        cell.surroundingMinesCount = b'.neighbourMines r c :=
  (setRandomMines_counts_neighbours 8 2500 12 (Board.mk 8 2500 (setBoard 8))
    (fun _ count => List.range count) rfl (by decide) (List.nodup_range 12)
    (by intro i hi; have := List.mem_range.1 hi; omega)).1

/-! ## The frame of a reveal -/

theorem ShownOnly.refl (b : Board) : ShownOnly b b := by
  refine ⟨rfl, rfl, fun r c => ⟨false, ?_⟩⟩
  cases b.cellAt r c <;> simp

theorem ShownOnly.trans {b₁ b₂ b₃ : Board} (h₁ : ShownOnly b₁ b₂) (h₂ : ShownOnly b₂ b₃) :
    ShownOnly b₁ b₃ := by
  refine ⟨h₂.1.trans h₁.1, h₂.2.1.trans h₁.2.1, fun r c => ?_⟩
  obtain ⟨s₁, e₁⟩ := h₁.2.2 r c
  obtain ⟨s₂, e₂⟩ := h₂.2.2 r c
  refine ⟨s₁ || s₂, ?_⟩
  rw [e₂, e₁]
  cases b₁.cellAt r c with
  | none => rfl
  | some cell =>
    simp only [Option.map_some', Option.some.injEq]
    cases cell.isShown <;> cases cell.isMine <;> cases s₁ <;> cases s₂ <;> rfl

theorem ShownOnly.cellAt_after {b b' : Board} (h : ShownOnly b b') {r c : Nat} {x : Cell}
    (hx : b.cellAt r c = some x) :
    ∃ s : Bool, b'.cellAt r c = some { x with isShown := x.isShown || (s && !x.isMine) } := by
  obtain ⟨s, e⟩ := h.2.2 r c
  exact ⟨s, by rw [e, hx]; rfl⟩

theorem ShownOnly.cellAt_before {b b' : Board} (h : ShownOnly b b') {r c : Nat} {y : Cell}
    (hy : b'.cellAt r c = some y) :
    ∃ x, b.cellAt r c = some x ∧ ∃ s : Bool,
      y = { x with isShown := x.isShown || (s && !x.isMine) } := by
  obtain ⟨s, e⟩ := h.2.2 r c
  rw [hy] at e
  cases hx : b.cellAt r c with
  | none => rw [hx] at e; cases e
  | some x =>
    rw [hx] at e
    simp only [Option.map_some', Option.some.injEq] at e
    exact ⟨x, rfl, s, e⟩

theorem ShownOnly.wellFormed {b b' : Board} (h : ShownOnly b b') (hwf : b.WellFormed) :
    b'.WellFormed := by
  intro r c
  obtain ⟨s, e⟩ := h.2.2 r c
  rw [e, h.1, ← hwf r c]
  cases b.cellAt r c <;> rfl

theorem ShownOnly.shownAt {b b' : Board} (h : ShownOnly b b') {p : CellRef}
    (hp : ShownAt b p) : ShownAt b' p := by
  obtain ⟨x, hx, hs⟩ := hp
  obtain ⟨s, e⟩ := h.cellAt_after hx
  exact ⟨_, e, by simp [hs]⟩

theorem ShownOnly.safeAt_iff {b b' : Board} (h : ShownOnly b b') (p : CellRef) :
    SafeAt b' p ↔ SafeAt b p := by
  constructor
  · rintro ⟨y, hy, hm⟩
    obtain ⟨x, hx, s, rfl⟩ := h.cellAt_before hy
    exact ⟨x, hx, hm⟩
  · rintro ⟨x, hx, hm⟩
    obtain ⟨s, e⟩ := h.cellAt_after hx
    exact ⟨_, e, hm⟩

theorem ShownOnly.blankAt_iff {b b' : Board} (h : ShownOnly b b') (p : CellRef) :
    BlankAt b' p ↔ BlankAt b p := by
  constructor
  · rintro ⟨y, hy, hm⟩
    obtain ⟨x, hx, s, rfl⟩ := h.cellAt_before hy
    exact ⟨x, hx, hm⟩
  · rintro ⟨x, hx, hm⟩
    obtain ⟨s, e⟩ := h.cellAt_after hx
    exact ⟨_, e, hm⟩

theorem ShownOnly.expanded {b b' : Board} (h : ShownOnly b b') {p : CellRef}
    (hp : Expanded b p) : Expanded b' p :=
  fun q hadj hsafe => h.shownAt (hp q hadj ((h.safeAt_iff q).1 hsafe))

theorem mem_unshown_refs (b : Board) (q : CellRef) :
    q ∈ (b.cells.filter fun x => !x.2.isShown).map Prod.fst ↔
      ∃ cell, b.cellAt q.1 q.2 = some cell ∧ cell.isShown = false := by
  rw [mem_filter_cells_refs]
  simp

theorem unshownCount_eq (b : Board) :
    b.unshownCount = ((b.cells.filter fun x => !x.2.isShown).map Prod.fst).length := by
  rw [List.length_map]; rfl

theorem ShownOnly.unshown_subset {b b' : Board} (h : ShownOnly b b') (q : CellRef)
    (hq : q ∈ (b'.cells.filter fun x => !x.2.isShown).map Prod.fst) :
    q ∈ (b.cells.filter fun x => !x.2.isShown).map Prod.fst := by
  rw [mem_unshown_refs] at hq ⊢
  obtain ⟨y, hy, hs⟩ := hq
  obtain ⟨x, hx, s, rfl⟩ := h.cellAt_before hy
  refine ⟨x, hx, ?_⟩
  simp only [Bool.or_eq_false_iff] at hs
  exact hs.1

theorem ShownOnly.unshownCount_le {b b' : Board} (h : ShownOnly b b') :
    b'.unshownCount ≤ b.unshownCount := by
  rw [unshownCount_eq, unshownCount_eq]
  exact (List.subperm_of_subset (filter_cells_refs_nodup _ _) fun q hq =>
    h.unshown_subset q hq).length_le

theorem ShownOnly.unshownCount_lt {b b' : Board} (h : ShownOnly b b') {q : CellRef}
    (hq : ¬ ShownAt b q) (hq' : ShownAt b' q) : b'.unshownCount < b.unshownCount := by
  rw [unshownCount_eq, unshownCount_eq]
  obtain ⟨y, hy, hs⟩ := hq'
  obtain ⟨x, hx, s, rfl⟩ := h.cellAt_before hy
  have hxs : x.isShown = false := by
    cases hxs : x.isShown
    · rfl
    · exact absurd ⟨x, hx, hxs⟩ hq
  have hmem : q ∈ (b.cells.filter fun x => !x.2.isShown).map Prod.fst :=
    (mem_unshown_refs b q).2 ⟨x, hx, hxs⟩
  have hsub : ∀ a ∈ (b'.cells.filter fun x => !x.2.isShown).map Prod.fst,
      a ∈ ((b.cells.filter fun x => !x.2.isShown).map Prod.fst).erase q := by
    intro a ha
    rw [(filter_cells_refs_nodup _ _).mem_erase_iff]
    refine ⟨?_, h.unshown_subset a ha⟩
    rintro rfl
    obtain ⟨z, hz, hzs⟩ := (mem_unshown_refs b' a).1 ha
    rw [hy] at hz
    cases hz
    rw [hs] at hzs
    cases hzs
  have hle := (List.subperm_of_subset (filter_cells_refs_nodup _ _) hsub).length_le
  rw [List.length_erase_of_mem hmem] at hle
  have hpos : 0 < ((b.cells.filter fun x => !x.2.isShown).map Prod.fst).length :=
    List.length_pos_of_mem hmem
  omega

/-! ## One iteration of the reveal loop -/

theorem revealCell_eq (recurse : Board → Nat → Nat → Except BoardError Board) (b : Board)
    (q : CellRef) (cell : Cell) (hcell : b.cellAt q.1 q.2 = some cell) :
    revealCell recurse b q =
      if cell.isMine = true then .ok b
      else if cell.surroundingMinesCount = 0 ∧ cell.isShown = false then
        recurse (b.modifyCell q fun cell => cell.setState { isShown := some true })
          cell.rowIdx cell.columnIdx
      else .ok (b.modifyCell q fun cell => cell.setState { isShown := some true }) := by
  simp only [revealCell, hcell]
  cases h1 : cell.isMine <;> cases h2 : cell.isShown <;>
    by_cases h3 : cell.surroundingMinesCount = 0 <;> simp [h3, Cell.coords]

theorem shownOnly_markShown {b : Board} {q : CellRef} {cell : Cell}
    (hcell : b.cellAt q.1 q.2 = some cell) (hm : cell.isMine = false) :
    ShownOnly b (b.modifyCell q fun cell => cell.setState { isShown := some true }) := by
  refine ⟨rfl, rfl, fun r c => ⟨decide (q = (r, c)), ?_⟩⟩
  rw [cellAt_modifyCell]
  by_cases hq : q = (r, c)
  · subst hq
    simp only [if_true, hcell, Option.map_some', decide_True, Bool.true_and]
    simp [Cell.setState, hm]
  · simp only [if_neg hq, decide_eq_false hq, Bool.false_and, Bool.or_false]
    cases b.cellAt r c <;> rfl

theorem shownAt_markShown {b : Board} {q : CellRef} {cell : Cell}
    (hcell : b.cellAt q.1 q.2 = some cell) :
    ShownAt (b.modifyCell q fun cell => cell.setState { isShown := some true }) q := by
  refine ⟨cell.setState { isShown := some true }, ?_, rfl⟩
  rw [cellAt_modifyCell, if_pos rfl, hcell]
  rfl

theorem shownAt_of_markShown {b : Board} {q p : CellRef}
    (h : ShownAt (b.modifyCell q fun cell => cell.setState { isShown := some true }) p) :
    p = q ∨ ShownAt b p := by
  by_cases hpq : q = (p.1, p.2)
  · exact Or.inl hpq.symm
  · right
    obtain ⟨y, hy, hs⟩ := h
    rw [cellAt_modifyCell, if_neg hpq] at hy
    exact ⟨y, hy, hs⟩

theorem revealCell_post (n : Nat) (recurse : Board → Nat → Nat → Except BoardError Board)
    (hrec : ∀ b tr tc, b.WellFormed → tr < b.sqrt → tc < b.sqrt → b.unshownCount < n →
      ∃ b', recurse b tr tc = .ok b' ∧ RevealPost b (tr, tc) b')
    {b : Board} (hwf : b.WellFormed) (q : CellRef) (hq1 : q.1 < b.sqrt) (hq2 : q.2 < b.sqrt)
    (hn : b.unshownCount ≤ n) :
    ∃ b', revealCell recurse b q = .ok b' ∧ ShownOnly b b' ∧ (SafeAt b q → ShownAt b' q) ∧
      ∀ p, BlankAt b p → ¬ ShownAt b p → ShownAt b' p → Expanded b' p := by
  obtain ⟨cell, hcell, hr, hc⟩ := hwf.cellAt_of_lt hq1 hq2
  rw [revealCell_eq recurse b q cell hcell]
  by_cases hmine : cell.isMine = true
  · rw [if_pos hmine]
    refine ⟨b, rfl, ShownOnly.refl b, ?_, fun p _ h1 h2 => absurd h2 h1⟩
    rintro ⟨x, hx, hxm⟩
    rw [hcell] at hx
    cases hx
    rw [hmine] at hxm
    cases hxm
  · rw [if_neg hmine]
    have hm : cell.isMine = false := by simpa using hmine
    have hso := shownOnly_markShown hcell hm
    have hsh : ShownAt (b.modifyCell q fun cell => cell.setState { isShown := some true }) q :=
      shownAt_markShown hcell
    by_cases hrecurse : cell.surroundingMinesCount = 0 ∧ cell.isShown = false
    · rw [if_pos hrecurse, hr, hc]
      have hunshown : ¬ ShownAt b q := by
        rintro ⟨x, hx, hxs⟩
        rw [hcell] at hx
        cases hx
        rw [hrecurse.2] at hxs
        cases hxs
      have hlt := hso.unshownCount_lt hunshown hsh
      obtain ⟨b', hb', hpost⟩ := hrec _ q.1 q.2 (hso.wellFormed hwf) hq1 hq2
        (Nat.lt_of_lt_of_le hlt hn)
      refine ⟨b', hb', hso.trans hpost.1, fun _ => hpost.1.shownAt hsh, ?_⟩
      intro p hblank hnot hshown
      by_cases hpq : p = q
      · subst hpq
        exact (hpost.2.2 ((hso.blankAt_iff _).2 hblank)).2
      · refine hpost.2.1 p ((hso.blankAt_iff _).2 hblank) ?_ hshown
        intro h1
        rcases shownAt_of_markShown h1 with h2 | h2
        · exact hpq h2
        · exact hnot h2
    · rw [if_neg hrecurse]
      refine ⟨_, rfl, hso, fun _ => hsh, ?_⟩
      intro p hblank hnot hshown
      exfalso
      rcases shownAt_of_markShown hshown with h2 | h2
      · subst h2
        obtain ⟨x, hx, _, hx0⟩ := hblank
        rw [hcell] at hx
        cases hx
        apply hrecurse
        refine ⟨hx0, ?_⟩
        cases hs : cell.isShown
        · rfl
        · exact absurd ⟨cell, hcell, hs⟩ hnot
      · exact hnot h2

theorem revealLoop_post (n : Nat) (recurse : Board → Nat → Nat → Except BoardError Board)
    (hrec : ∀ b tr tc, b.WellFormed → tr < b.sqrt → tc < b.sqrt → b.unshownCount < n →
      ∃ b', recurse b tr tc = .ok b' ∧ RevealPost b (tr, tc) b')
    (refs : List CellRef) {b : Board} (hwf : b.WellFormed)
    (hin : ∀ q ∈ refs, q.1 < b.sqrt ∧ q.2 < b.sqrt) (hn : b.unshownCount ≤ n) :
    ∃ b', refs.foldlM (revealCell recurse) b = .ok b' ∧ ShownOnly b b' ∧
      (∀ q ∈ refs, SafeAt b q → ShownAt b' q) ∧
      ∀ p, BlankAt b p → ¬ ShownAt b p → ShownAt b' p → Expanded b' p := by
  induction refs generalizing b with
  | nil =>
    exact ⟨b, rfl, ShownOnly.refl b, fun q hq => absurd hq (List.not_mem_nil q),
      fun p _ h1 h2 => absurd h2 h1⟩
  | cons q refs ih =>
    obtain ⟨hq1, hq2⟩ := hin q (List.mem_cons_self _ _)
    obtain ⟨b₁, hb₁, hso₁, hq, hnew₁⟩ := revealCell_post n recurse hrec hwf q hq1 hq2 hn
    have hin₁ : ∀ a ∈ refs, a.1 < b₁.sqrt ∧ a.2 < b₁.sqrt := by
      intro a ha
      rw [hso₁.1]
      exact hin a (List.mem_cons_of_mem _ ha)
    obtain ⟨b₂, hb₂, hso₂, hrefs, hnew₂⟩ := ih (hso₁.wellFormed hwf) hin₁
      (Nat.le_trans hso₁.unshownCount_le hn)
    refine ⟨b₂, ?_, hso₁.trans hso₂, ?_, ?_⟩
    · rw [List.foldlM_cons, hb₁]
      exact hb₂
    · intro a ha hsafe
      rcases List.mem_cons.1 ha with rfl | ha
      · exact hso₂.shownAt (hq hsafe)
      · exact hrefs a ha ((hso₁.safeAt_iff a).2 hsafe)
    · intro p hblank hnot hshown
      by_cases h1 : ShownAt b₁ p
      · exact hso₂.expanded (hnew₁ p hblank hnot h1)
      · exact hnew₂ p ((hso₁.blankAt_iff p).2 hblank) h1 hshown

/-! ## The recursion of the reveal -/

theorem revealSurroundingTargetCells_succ (fuel : Nat) (b : Board) (tr tc : Nat) (cell : Cell)
    (hcell : b.cellAt tr tc = some cell) :
    revealSurroundingTargetCells (fuel + 1) b tr tc =
      if cell.surroundingMinesCount = 0 ∧ cell.isMine = false then
        (b.getSurroundingCells tr tc { excludeDiagonalCells := true }).foldlM
          (revealCell (revealSurroundingTargetCells fuel)) b
      else .ok b := by
  simp only [revealSurroundingTargetCells, hcell]
  cases h1 : cell.isMine <;> by_cases h3 : cell.surroundingMinesCount = 0 <;> simp [h3]

theorem revealSurroundingTargetCells_post (n : Nat) :
    ∀ b tr tc, b.WellFormed → tr < b.sqrt → tc < b.sqrt → b.unshownCount < n →
      ∃ b', revealSurroundingTargetCells n b tr tc = .ok b' ∧ RevealPost b (tr, tc) b' := by
  induction n with
  | zero => intro b tr tc _ _ _ h; exact absurd h (Nat.not_lt_zero _)
  | succ n ih =>
    intro b tr tc hwf htr htc hn
    obtain ⟨cell, hcell, _, _⟩ := hwf.cellAt_of_lt htr htc
    rw [revealSurroundingTargetCells_succ n b tr tc cell hcell]
    by_cases hblank : cell.surroundingMinesCount = 0 ∧ cell.isMine = false
    · rw [if_pos hblank]
      have hmem : ∀ q : CellRef, q ∈ b.getSurroundingCells tr tc { excludeDiagonalCells := true } ↔
          (q.1 < b.sqrt ∧ q.2 < b.sqrt ∧ (q = (tr, tc) ∨ orthAdj (tr, tc) q)) := by
        intro q
        rw [mem_getSurroundingCells hwf, isLegitCell_orthogonal]
      obtain ⟨b', hb', hso, hrefs, hnew⟩ := revealLoop_post n _ ih
        (b.getSurroundingCells tr tc { excludeDiagonalCells := true }) hwf
        (fun q hq => ⟨((hmem q).1 hq).1, ((hmem q).1 hq).2.1⟩) (Nat.le_of_lt_succ hn)
      refine ⟨b', hb', hso, hnew, fun _ => ⟨?_, ?_⟩⟩
      · exact hrefs _ ((hmem _).2 ⟨htr, htc, Or.inl rfl⟩) ⟨cell, hcell, hblank.2⟩
      · intro q hadj hsafe
        obtain ⟨x, hx, hxm⟩ := (hso.safeAt_iff q).1 hsafe
        obtain ⟨hq1, hq2, _, _⟩ := hwf.of_cellAt hx
        exact hrefs q ((hmem q).2 ⟨hq1, hq2, Or.inr hadj⟩) ⟨x, hx, hxm⟩
    · rw [if_neg hblank]
      refine ⟨b, rfl, ShownOnly.refl b, fun p _ h1 h2 => absurd h2 h1, ?_⟩
      rintro ⟨x, hx, hxm, hx0⟩
      rw [hcell] at hx
      cases hx
      exact absurd ⟨hx0, hxm⟩ hblank

theorem revealCell_mono {recurse recurse' : Board → Nat → Nat → Except BoardError Board}
    (h : ∀ b tr tc b', recurse b tr tc = .ok b' → recurse' b tr tc = .ok b')
    (b : Board) (q : CellRef) (b' : Board) (hb : revealCell recurse b q = .ok b') :
    revealCell recurse' b q = .ok b' := by
  cases hcell : b.cellAt q.1 q.2 with
  | none => simp [revealCell, hcell] at hb
  | some cell =>
    rw [revealCell_eq _ b q cell hcell] at hb ⊢
    split
    · rwa [if_pos (by assumption)] at hb
    · rw [if_neg (by assumption)] at hb
      split
      · rw [if_pos (by assumption)] at hb
        exact h _ _ _ _ hb
      · rwa [if_neg (by assumption)] at hb

theorem revealLoop_mono {recurse recurse' : Board → Nat → Nat → Except BoardError Board}
    (h : ∀ b tr tc b', recurse b tr tc = .ok b' → recurse' b tr tc = .ok b')
    (refs : List CellRef) (b b' : Board) (hb : refs.foldlM (revealCell recurse) b = .ok b') :
    refs.foldlM (revealCell recurse') b = .ok b' := by
  induction refs generalizing b with
  | nil => exact hb
  | cons q refs ih =>
    rw [List.foldlM_cons] at hb ⊢
    cases hstep : revealCell recurse b q with
    | error e => rw [hstep] at hb; cases hb
    | ok b₁ =>
      rw [hstep] at hb
      rw [revealCell_mono h b q b₁ hstep]
      exact ih b₁ hb

theorem revealSurroundingTargetCells_fuel_succ (n : Nat) :
    ∀ b tr tc b', revealSurroundingTargetCells n b tr tc = .ok b' →
      revealSurroundingTargetCells (n + 1) b tr tc = .ok b' := by
  induction n with
  | zero => intro b tr tc b' h; simp [revealSurroundingTargetCells] at h
  | succ n ih =>
    intro b tr tc b' h
    cases hcell : b.cellAt tr tc with
    | none => simp [revealSurroundingTargetCells, hcell] at h
    | some cell =>
      rw [revealSurroundingTargetCells_succ _ b tr tc cell hcell] at h ⊢
      split
      · rw [if_pos (by assumption)] at h
        exact revealLoop_mono ih _ b b' h
      · rwa [if_neg (by assumption)] at h

theorem revealSurroundingTargetCells_fuel_le {n m : Nat} (hnm : n ≤ m) (b : Board)
    (tr tc : Nat) (b' : Board) (h : revealSurroundingTargetCells n b tr tc = .ok b') :
    revealSurroundingTargetCells m b tr tc = .ok b' := by
  induction hnm with
  | refl => exact h
  | step _ ih => exact revealSurroundingTargetCells_fuel_succ _ b tr tc b' ih

/-- On a well-formed board and for an in-range target, every fuel above the number of
unshown cells yields the same board, and that board satisfies `RevealPost`. -/
theorem revealSurroundingTargetCells_total {b : Board} (hwf : b.WellFormed) (tr tc : Nat)
    (htr : tr < b.sqrt) (htc : tc < b.sqrt) :
    ∃ b', (∀ fuel, b.unshownCount < fuel → revealSurroundingTargetCells fuel b tr tc = .ok b') ∧
      RevealPost b (tr, tc) b' := by
  obtain ⟨b', hb', hpost⟩ := revealSurroundingTargetCells_post (b.unshownCount + 1) b tr tc hwf
    htr htc (Nat.lt_succ_self _)
  exact ⟨b', fun fuel hf => revealSurroundingTargetCells_fuel_le hf b tr tc b' hb', hpost⟩

theorem not_shownAt_setBoard (S hd : Nat) (p : CellRef) :
    ¬ ShownAt (Board.mk S hd (setBoard S)) p := by
  rintro ⟨cell, hcell, hs⟩
  rw [cellAt_setBoard] at hcell
  split at hcell
  · cases hcell
    cases hs
  · cases hcell

theorem blankAt_setBoard (S hd : Nat) (p : CellRef) (h1 : p.1 < S) (h2 : p.2 < S) :
    BlankAt (Board.mk S hd (setBoard S)) p :=
  ⟨{ rowIdx := p.1, columnIdx := p.2 }, by rw [cellAt_setBoard, if_pos ⟨h1, h2⟩], rfl, rfl⟩

theorem BlankReach.blankAt {b : Board} {t p : CellRef} (h : BlankReach b t p) : BlankAt b p := by
  cases h with
  | start h0 => exact h0
  | step _ _ hq => exact hq

/-! ## Claims about the reveal -/

/-- C3: on a well-formed board, for an in-range target that is a zero-count cell and not a
mine, provided every shown zero-count cell that is not a mine, other than the target,
already has all its orthogonal neighbours that are not mines shown: the call returns one
and the same board for every fuel above the number of unshown cells, and on that board
every zero-count cell reachable from the target through orthogonally adjacent zero-count
cells that are not mines is shown, every cell that is not a mine and orthogonally adjacent
to such a cell is shown, and every mine cell is as it was. -/
theorem revealSurroundingTargetCells_floods (b : Board) (hwf : b.WellFormed) (tr tc : Nat)
    (htr : tr < b.sqrt) (htc : tc < b.sqrt) (hblank : BlankAt b (tr, tc))
    (hpre : ∀ z, z ≠ (tr, tc) → BlankAt b z → ShownAt b z → Expanded b z) :
    ∃ b', (∀ fuel, b.unshownCount < fuel →
        revealSurroundingTargetCells fuel b tr tc = .ok b') ∧
      (∀ z, BlankReach b (tr, tc) z → ShownAt b' z) ∧
      (∀ z q, BlankReach b (tr, tc) z → orthAdj z q → SafeAt b q → ShownAt b' q) ∧
      (∀ r c cell, b.cellAt r c = some cell → cell.isMine = true →
        b'.cellAt r c = some cell) := by
  obtain ⟨b', hb', hso, hnew, htarget⟩ := revealSurroundingTargetCells_total hwf tr tc htr htc
  have hexp : ∀ z, BlankAt b z → ShownAt b' z → Expanded b' z := by
    intro z hz hs
    by_cases hzt : z = (tr, tc)
    · subst hzt
      exact (htarget hblank).2
    · by_cases hold : ShownAt b z
      · exact hso.expanded (hpre z hzt hz hold)
      · exact hnew z hz hold hs
  have hreach : ∀ z, BlankReach b (tr, tc) z → ShownAt b' z := by
    intro z hz
    induction hz with
    | start _ => exact (htarget hblank).1
    | step hp hadj hq ih =>
      obtain ⟨x, hx, hxm, _⟩ := hq
      exact hexp _ hp.blankAt ih _ hadj ((hso.safeAt_iff _).2 ⟨x, hx, hxm⟩)
  refine ⟨b', hb', hreach, ?_, ?_⟩
  · intro z q hz hadj hsafe
    exact hexp z hz.blankAt (hreach z hz) q hadj ((hso.safeAt_iff q).2 hsafe)
  · intro r c cell hcell hm
    obtain ⟨s, e⟩ := hso.cellAt_after hcell
    rw [e]
    cases cell
    simp_all

theorem revealSurroundingTargetCells_floods_witness :
    ∃ b', (∀ fuel, (Board.mk 8 2500 (setBoard 8)).unshownCount < fuel →
        revealSurroundingTargetCells fuel (Board.mk 8 2500 (setBoard 8)) 0 0 = .ok b') ∧
      ShownAt b' (0, 0) := by
  obtain ⟨b', h1, h2, _⟩ := revealSurroundingTargetCells_floods (Board.mk 8 2500 (setBoard 8))
    (wellFormed_setBoard 8 2500) 0 0 (by decide) (by decide)
    (blankAt_setBoard 8 2500 (0, 0) (by decide) (by decide))
    (fun z _ _ hs => absurd hs (not_shownAt_setBoard 8 2500 z))
  exact ⟨b', h1, h2 _ (BlankReach.start (blankAt_setBoard 8 2500 (0, 0) (by decide) (by decide)))⟩

/-- C4: on a well-formed board and for an in-range target, the call terminates: every fuel
above the number of unshown cells yields the same board.  The loop callback consults the
recursive call only for a cell that was not shown and that it has just marked shown, on a
board with strictly fewer unshown cells. -/
theorem revealSurroundingTargetCells_terminates (b : Board) (hwf : b.WellFormed) (tr tc : Nat)
    (htr : tr < b.sqrt) (htc : tc < b.sqrt) :
    (∃ b', ∀ fuel, b.unshownCount < fuel →
        revealSurroundingTargetCells fuel b tr tc = .ok b') ∧
      (∀ (recurse recurse' : Board → Nat → Nat → Except BoardError Board) (b₀ : Board)
          (q : CellRef),
        (∀ cell, b₀.cellAt q.1 q.2 = some cell → cell.isShown = false →
          ShownAt (b₀.modifyCell q fun cell => cell.setState { isShown := some true }) q →
          (b₀.modifyCell q fun cell => cell.setState { isShown := some true }).unshownCount <
            b₀.unshownCount →
          recurse (b₀.modifyCell q fun cell => cell.setState { isShown := some true })
              cell.coords.1 cell.coords.2 =
            recurse' (b₀.modifyCell q fun cell => cell.setState { isShown := some true })
              cell.coords.1 cell.coords.2) →
        revealCell recurse b₀ q = revealCell recurse' b₀ q) := by
  constructor
  · obtain ⟨b', hb', _⟩ := revealSurroundingTargetCells_total hwf tr tc htr htc
    exact ⟨b', hb'⟩
  · intro recurse recurse' b₀ q hagree
    cases hcell : b₀.cellAt q.1 q.2 with
    | none => simp [revealCell, hcell]
    | some cell =>
      rw [revealCell_eq recurse b₀ q cell hcell, revealCell_eq recurse' b₀ q cell hcell]
      by_cases hmine : cell.isMine = true
      · rw [if_pos hmine, if_pos hmine]
      · rw [if_neg hmine, if_neg hmine]
        by_cases hrecurse : cell.surroundingMinesCount = 0 ∧ cell.isShown = false
        · rw [if_pos hrecurse, if_pos hrecurse]
          have hm : cell.isMine = false := by simpa using hmine
          have hunshown : ¬ ShownAt b₀ q := by
            rintro ⟨x, hx, hxs⟩
            rw [hcell] at hx
            cases hx
            rw [hrecurse.2] at hxs
            cases hxs
          exact hagree cell hcell hrecurse.2 (shownAt_markShown hcell)
            ((shownOnly_markShown hcell hm).unshownCount_lt hunshown (shownAt_markShown hcell))
        · rw [if_neg hrecurse, if_neg hrecurse]

theorem revealSurroundingTargetCells_terminates_witness :
    ∃ b', ∀ fuel, (Board.mk 8 2500 (setBoard 8)).unshownCount < fuel →
      revealSurroundingTargetCells fuel (Board.mk 8 2500 (setBoard 8)) 3 4 = .ok b' :=
  (revealSurroundingTargetCells_terminates (Board.mk 8 2500 (setBoard 8))
    (wellFormed_setBoard 8 2500) 3 4 (by decide) (by decide)).1

/-- C5: on a well-formed board and for an in-range target, the call returns a board on
which every mine cell is exactly as it was before the call, `isShown` and `isHint`
included. -/
theorem revealSurroundingTargetCells_keeps_mines (b : Board) (hwf : b.WellFormed)
    (tr tc : Nat) (htr : tr < b.sqrt) (htc : tc < b.sqrt) :
    ∃ b', (∀ fuel, b.unshownCount < fuel →
        revealSurroundingTargetCells fuel b tr tc = .ok b') ∧
      ∀ r c cell, b.cellAt r c = some cell → cell.isMine = true →
        b'.cellAt r c = some cell := by
  obtain ⟨b', hb', hso, _⟩ := revealSurroundingTargetCells_total hwf tr tc htr htc
  refine ⟨b', hb', ?_⟩
  intro r c cell hcell hm
  obtain ⟨s, e⟩ := hso.cellAt_after hcell
  rw [e]
  cases cell
  simp_all

theorem revealSurroundingTargetCells_keeps_mines_witness :
    ∃ b', (∀ fuel,
        ((Board.mk 8 2500 (setBoard 8)).modifyCell (0, 1)
          fun cell => { cell with isMine := true }).unshownCount < fuel →
        revealSurroundingTargetCells fuel
          ((Board.mk 8 2500 (setBoard 8)).modifyCell (0, 1)
            fun cell => { cell with isMine := true }) 0 0 = .ok b') ∧
      b'.cellAt 0 1 = some { rowIdx := 0, columnIdx := 1, isMine := true } := by
  obtain ⟨b', h1, h2⟩ := revealSurroundingTargetCells_keeps_mines
    ((Board.mk 8 2500 (setBoard 8)).modifyCell (0, 1) fun cell => { cell with isMine := true })
    ((wellFormed_setBoard 8 2500).modifyCell _ _ fun _ => rfl) 0 0 (by decide) (by decide)
  exact ⟨b', h1, h2 0 1 _ (by decide) rfl⟩

/-! ## Hint, reveal, hide -/

theorem cellAt_hideCells (b : Board) (hintedCells : List CellRef) (hnd : hintedCells.Nodup)
    (r c : Nat) :
    (b.hideCells hintedCells).cellAt r c =
      if (r, c) ∈ hintedCells then
        (b.cellAt r c).map fun cell =>
          if !cell.isHint then cell
          else cell.setState { isShown := some false, isHint := some false }
      else b.cellAt r c := by
  unfold hideCells
  exact cellAt_foldl_modifyCell _ _ hnd b r c

theorem handleHintCellClick_sqrt (b : Board) (tr tc : Nat) :
    (b.handleHintCellClick tr tc).1.sqrt = b.sqrt := by
  unfold handleHintCellClick
  exact foldl_modifyCell_sqrt _ _ _

theorem WellFormed.handleHintCellClick {b : Board} (h : b.WellFormed) (tr tc : Nat) :
    (b.handleHintCellClick tr tc).1.WellFormed := by
  intro r c
  rw [cellAt_handleHintCellClick h, handleHintCellClick_sqrt, ← h r c]
  cases b.cellAt r c with
  | none => rfl
  | some cell =>
    simp only [Option.map_some', Option.some.injEq]
    split <;> rfl

/-- C7, as the code has it: on a well-formed board, after the show step of a hint at
`(tr, tc)`, a reveal at any in-range target `(ur, uc)` and then the hide step of the hint,
every cell of the hinted neighbourhood that the hint had flagged (it was not shown before
the hint) is not shown and not hint, whether or not the reveal marked it shown: the reveal
leaves `isHint` set, so the hide step resets the cell. -/
theorem hint_reveal_hide_resets (b : Board) (hwf : b.WellFormed) (tr tc ur uc : Nat)
    (hur : ur < b.sqrt) (huc : uc < b.sqrt) :
    ∃ b₂, (∀ fuel, (b.handleHintCellClick tr tc).1.unshownCount < fuel →
        revealSurroundingTargetCells fuel (b.handleHintCellClick tr tc).1 ur uc = .ok b₂) ∧
      ∀ r c cell, near (tr, tc) (r, c) → b.cellAt r c = some cell → cell.isShown = false →
        (b₂.hideCells (b.handleHintCellClick tr tc).2).cellAt r c =
          some { cell with isShown := false, isHint := false } := by
  have hwf₁ := hwf.handleHintCellClick tr tc
  obtain ⟨b₂, hb₂, hso, _⟩ := revealSurroundingTargetCells_total hwf₁
    ur uc (by rw [handleHintCellClick_sqrt]; exact hur)
    (by rw [handleHintCellClick_sqrt]; exact huc)
  refine ⟨b₂, hb₂, ?_⟩
  intro r c cell hn hcell hs
  have h₁ : (b.handleHintCellClick tr tc).1.cellAt r c =
      some { cell with isShown := true, isHint := true } := by
    rw [cellAt_handleHintCellClick hwf, hcell]
    simp [hn, hs]
  obtain ⟨s, h₂⟩ := hso.cellAt_after h₁
  obtain ⟨hr, hc, _, _⟩ := hwf.of_cellAt hcell
  have hmem : (r, c) ∈ (b.handleHintCellClick tr tc).2 := by
    show (r, c) ∈ b.getSurroundingCells tr tc {}
    rw [mem_getSurroundingCells hwf, isLegitCell_default]
    exact ⟨hr, hc, hn⟩
  have hnd : (b.handleHintCellClick tr tc).2.Nodup := getSurroundingCells_nodup b tr tc {}
  rw [cellAt_hideCells _ _ hnd, if_pos hmem, h₂]
  simp [Cell.setState]

theorem hint_reveal_hide_resets_witness :
    ∃ b₂, (∀ fuel, ((Board.mk 8 2500 (setBoard 8)).handleHintCellClick 4 4).1.unshownCount <
          fuel →
        revealSurroundingTargetCells fuel
          ((Board.mk 8 2500 (setBoard 8)).handleHintCellClick 4 4).1 4 4 = .ok b₂) ∧
      (b₂.hideCells ((Board.mk 8 2500 (setBoard 8)).handleHintCellClick 4 4).2).cellAt 4 5 =
        some { rowIdx := 4, columnIdx := 5 } := by
  obtain ⟨b₂, h1, h2⟩ := hint_reveal_hide_resets (Board.mk 8 2500 (setBoard 8))
    (wellFormed_setBoard 8 2500) 4 4 4 4 (by decide) (by decide)
  exact ⟨b₂, h1, h2 4 5 { rowIdx := 4, columnIdx := 5 } (by decide) (by decide) rfl⟩

/-- C7 as stated fails: on the new 8×8 board, the hint at `(0, 0)` flags `(0, 1)`; the
reveal at `(0, 0)` then reaches `(0, 1)`, which is in its orthogonal neighbourhood and is
not a mine, and marks it shown; after the hide step of the hint the cell at `(0, 1)` is
not shown. -/
theorem hint_reveal_hide_hides_revealed_cell :
    (((Board.mk 8 2500 (setBoard 8)).handleHintCellClick 0 0).1.cellAt 0 1 =
        some { rowIdx := 0, columnIdx := 1, isShown := true, isHint := true }) ∧
      ((0, 1) ∈ ((Board.mk 8 2500 (setBoard 8)).handleHintCellClick 0 0).1.getSurroundingCells
        0 0 { excludeDiagonalCells := true }) ∧
      ((revealSurroundingTargetCells 65
          ((Board.mk 8 2500 (setBoard 8)).handleHintCellClick 0 0).1 0 0).toOption.bind
        fun b₂ =>
          (b₂.hideCells ((Board.mk 8 2500 (setBoard 8)).handleHintCellClick 0 0).2).cellAt 0 1) =
        some { rowIdx := 0, columnIdx := 1, isShown := false, isHint := false } := by
  decide

/-! ## Hint round trip -/

theorem foldl_modifyCell_hintDuration (f : Cell → Cell) (refs : List CellRef) (b : Board) :
    (refs.foldl (fun b ref => b.modifyCell ref f) b).hintDuration = b.hintDuration := by
  induction refs generalizing b with
  | nil => rfl
  | cons ref refs ih => rw [List.foldl_cons, ih]; rfl

/-- C11: on a well-formed board on which no cell of the target's 3×3 neighbourhood is
flagged hint, the show step of `handleHintCellClick` followed at once by its hide step
gives back every cell exactly as it was before the hint (so the cells the hint flagged are
again not shown and not hint, and the cells that were shown stay shown); the size and the
hint duration are unchanged as well. -/
theorem hint_round_trip (b : Board) (hwf : b.WellFormed) (tr tc : Nat)
    (hno : ∀ r c cell, near (tr, tc) (r, c) → b.cellAt r c = some cell → cell.isHint = false) :
    (∀ r c, ((b.handleHintCellClick tr tc).1.hideCells (b.handleHintCellClick tr tc).2).cellAt
        r c = b.cellAt r c) ∧
      ((b.handleHintCellClick tr tc).1.hideCells (b.handleHintCellClick tr tc).2).sqrt = b.sqrt ∧
      ((b.handleHintCellClick tr tc).1.hideCells (b.handleHintCellClick tr tc).2).hintDuration =
        b.hintDuration := by
  refine ⟨?_, ?_, ?_⟩
  · intro r c
    have hnd : (b.handleHintCellClick tr tc).2.Nodup := getSurroundingCells_nodup b tr tc {}
    have hm : (r, c) ∈ (b.handleHintCellClick tr tc).2 ↔
        (r < b.sqrt ∧ c < b.sqrt ∧ near (tr, tc) (r, c)) := by
      show (r, c) ∈ b.getSurroundingCells tr tc {} ↔ _
      rw [mem_getSurroundingCells hwf, isLegitCell_default]
    rw [cellAt_hideCells _ _ hnd, cellAt_handleHintCellClick hwf]
    cases hcell : b.cellAt r c with
    | none => simp
    | some cell =>
      obtain ⟨hr, hc, _, _⟩ := hwf.of_cellAt hcell
      by_cases hn : near (tr, tc) (r, c)
      · have hh := hno r c cell hn hcell
        rw [if_pos (hm.2 ⟨hr, hc, hn⟩)]
        cases hs : cell.isShown
        · cases cell
          simp_all [Cell.setState]
        · simp [hn, hs, hh]
      · have hout : (r, c) ∉ (b.handleHintCellClick tr tc).2 := fun hin => hn (hm.1 hin).2.2
        rw [if_neg hout]
        simp [hn]
  · unfold hideCells handleHintCellClick
    rw [foldl_modifyCell_sqrt, foldl_modifyCell_sqrt]
  · unfold hideCells handleHintCellClick
    rw [foldl_modifyCell_hintDuration, foldl_modifyCell_hintDuration]

theorem hint_round_trip_witness :
    (((Board.mk 8 2500 (setBoard 8)).handleHintCellClick 3 3).1.hideCells
        ((Board.mk 8 2500 (setBoard 8)).handleHintCellClick 3 3).2).cellAt 2 4 =
      (Board.mk 8 2500 (setBoard 8)).cellAt 2 4 :=
  (hint_round_trip (Board.mk 8 2500 (setBoard 8)) (wellFormed_setBoard 8 2500) 3 3
    (by
      intro r c cell _ hcell
      rw [cellAt_setBoard] at hcell
      split at hcell
      · cases hcell; rfl
      · cases hcell)).1 2 4

/-! ## Construction -/

/-- C14: for every side length `S` in {8, 12, 16} the constructor succeeds, and the grid of
the board has exactly `S` rows of exactly `S` cells each, the cell stored at row `r`,
column `c` being the new cell created with the coordinates `(r, c)`. -/
theorem new_grid_spec (S hd : Nat) (hS : S ∈ [8, 12, 16]) :
    ∃ b, Board.new S hd = .ok b ∧ b.sqrt = S ∧ b.board.length = S ∧
      (∀ row ∈ b.board, row.length = S) ∧
      ∀ r c, r < S → c < S → b.cellAt r c = some { rowIdx := r, columnIdx := c } := by
  have hS0 : S ≠ 0 := by
    simp only [List.mem_cons, List.mem_singleton, List.not_mem_nil, or_false] at hS
    omega
  refine ⟨Board.mk S hd (setBoard S), ?_, rfl, ?_, ?_, ?_⟩
  · unfold Board.new
    rw [if_neg hS0, if_neg (not_not.2 hS)]
  · simp [setBoard]
  · intro row hrow
    simp only [setBoard, List.mem_map] at hrow
    obtain ⟨_, _, rfl⟩ := hrow
    simp
  · intro r c hr hc
    rw [cellAt_setBoard, if_pos ⟨hr, hc⟩]

theorem new_grid_spec_witness :
    ∃ b, Board.new 8 2500 = .ok b ∧ b.sqrt = 8 ∧ b.board.length = 8 :=
  let ⟨b, h1, h2, h3, _⟩ := new_grid_spec 8 2500 (by decide)
  ⟨b, h1, h2, h3⟩

/-! ## Mines keep a zero count -/

/-- C18: on a newly constructed board of side `S`, for a mine count `M` in {12, 30, 64}, if
the random utility returns `M` pairwise distinct indices below `S * S`, then after
`setRandomMines` every mine cell has `surroundingMinesCount` zero, whether or not mines
are adjacent to each other. -/
theorem setRandomMines_mine_count_zero (S hd M : Nat) (b : Board)
    (rnd : Nat → Nat → List Nat)
    (hb : Board.new S hd = .ok b) (hM : M ∈ [12, 30, 64])
    (hnd : (rnd (S ^ 2) M).Nodup) (hlt : ∀ i ∈ rnd (S ^ 2) M, i < S * S) :
    ∃ b', b.setRandomMines M rnd = .ok b' ∧
      ∀ r c cell, b'.cellAt r c = some cell → cell.isMine = true →
        cell.surroundingMinesCount = 0 := by
  obtain ⟨rfl, _⟩ := new_eq_ok hb
  obtain ⟨b', hset, _, _, _, hcells⟩ := setRandomMines_new S hd M rnd hM hnd hlt
  refine ⟨b', hset, ?_⟩
  intro r c cell hcell hm
  rw [hcells r c] at hcell
  split at hcell
  · split at hcell
    · cases hcell; rfl
    · cases hcell; cases hm
  · cases hcell

theorem setRandomMines_mine_count_zero_witness :
    ∃ b', (Board.mk 8 2500 (setBoard 8)).setRandomMines 12 (fun _ count => List.range count) =
        .ok b' ∧
      ∀ r c cell, b'.cellAt r c = some cell → cell.isMine = true →
        cell.surroundingMinesCount = 0 := by
  exact setRandomMines_mine_count_zero 8 2500 12
    (Board.mk 8 2500 (setBoard 8)) (fun _ count => List.range count) rfl (by decide)
    (List.nodup_range 12) (by intro i hi; have := List.mem_range.1 hi; omega)

/-! ## What reveal and hint leave alone -/

theorem revealSurroundingTargetCells_ok_post {b : Board} (hwf : b.WellFormed) {n tr tc : Nat}
    {b' : Board} (h : revealSurroundingTargetCells n b tr tc = .ok b') :
    tr < b.sqrt ∧ tc < b.sqrt ∧ RevealPost b (tr, tc) b' := by
  have hrange : tr < b.sqrt ∧ tc < b.sqrt := by
    cases n with
    | zero => simp [revealSurroundingTargetCells] at h
    | succ n =>
      cases hcell : b.cellAt tr tc with
      | none => simp [revealSurroundingTargetCells, hcell] at h
      | some cell =>
        obtain ⟨h1, h2, _, _⟩ := hwf.of_cellAt hcell
        exact ⟨h1, h2⟩
  obtain ⟨b'', hb'', hpost⟩ := revealSurroundingTargetCells_total hwf tr tc hrange.1 hrange.2
  have h1 := revealSurroundingTargetCells_fuel_le (Nat.le_max_left n (b.unshownCount + 1))
    b tr tc b' h
  have h2 := hb'' (max n (b.unshownCount + 1))
    (Nat.lt_of_lt_of_le (Nat.lt_succ_self _) (Nat.le_max_right _ _))
  rw [h1] at h2
  cases h2
  exact ⟨hrange.1, hrange.2, hpost⟩

theorem ShownOnly.fixedPart_eq {b b' : Board} (h : ShownOnly b b') (r c : Nat) :
    (b'.cellAt r c).map fixedPart = (b.cellAt r c).map fixedPart := by
  obtain ⟨s, e⟩ := h.2.2 r c
  rw [e]
  cases b.cellAt r c <;> rfl

theorem cellAt_foldl_modifyCell_map {α : Type} (proj : Cell → α) (f : Cell → Cell)
    (hf : ∀ x, proj (f x) = proj x) (refs : List CellRef) (b : Board) (r c : Nat) :
    ((refs.foldl (fun b ref => b.modifyCell ref f) b).cellAt r c).map proj =
      (b.cellAt r c).map proj := by
  induction refs generalizing b with
  | nil => rfl
  | cons ref refs ih =>
    rw [List.foldl_cons, ih, cellAt_modifyCell]
    split
    · cases b.cellAt r c <;> simp [hf]
    · rfl

/-- C17: on a well-formed board and for an in-range target, `revealSurroundingTargetCells`
returns a board whose cells have the same coordinates, `isMine` and
`surroundingMinesCount` as before, and so does every result of the call at any fuel; the
show step of `handleHintCellClick` and the hide step `hideCells` (on any board and for any
captured list) keep these three as well.  Only `isShown` and `isHint` can differ. -/
theorem operations_keep_fixedPart (b : Board) (hwf : b.WellFormed) (tr tc : Nat)
    (htr : tr < b.sqrt) (htc : tc < b.sqrt) :
    (∃ b', (∀ fuel, b.unshownCount < fuel →
        revealSurroundingTargetCells fuel b tr tc = .ok b') ∧
      ∀ r c, (b'.cellAt r c).map fixedPart = (b.cellAt r c).map fixedPart) ∧
    (∀ fuel b', revealSurroundingTargetCells fuel b tr tc = .ok b' →
      ∀ r c, (b'.cellAt r c).map fixedPart = (b.cellAt r c).map fixedPart) ∧
    (∀ r c, ((b.handleHintCellClick tr tc).1.cellAt r c).map fixedPart =
      (b.cellAt r c).map fixedPart) ∧
    (∀ (b₂ : Board) (hintedCells : List CellRef) (r c : Nat),
      ((b₂.hideCells hintedCells).cellAt r c).map fixedPart =
        (b₂.cellAt r c).map fixedPart) := by
  refine ⟨?_, ?_, ?_, ?_⟩
  · obtain ⟨b', hb', hso, _⟩ := revealSurroundingTargetCells_total hwf tr tc htr htc
    exact ⟨b', hb', hso.fixedPart_eq⟩
  · intro fuel b' h
    exact (revealSurroundingTargetCells_ok_post hwf h).2.2.1.fixedPart_eq
  · intro r c
    unfold handleHintCellClick
    exact cellAt_foldl_modifyCell_map fixedPart _ (fun x => by split <;> rfl) _ b r c
  · intro b₂ hintedCells r c
    unfold hideCells
    exact cellAt_foldl_modifyCell_map fixedPart _ (fun x => by split <;> rfl) _ b₂ r c

theorem operations_keep_fixedPart_witness :
    ∃ b', (∀ fuel, (Board.mk 8 2500 (setBoard 8)).unshownCount < fuel →
        revealSurroundingTargetCells fuel (Board.mk 8 2500 (setBoard 8)) 2 5 = .ok b') ∧
      ∀ r c, (b'.cellAt r c).map fixedPart =
        ((Board.mk 8 2500 (setBoard 8)).cellAt r c).map fixedPart :=
  (operations_keep_fixedPart (Board.mk 8 2500 (setBoard 8)) (wellFormed_setBoard 8 2500) 2 5
    (by decide) (by decide)).1

/-! ## The argument checks -/

theorem construct_number (n hd : Nat) :
    construct (.number (.finite (n : Rat))) (some hd) = Board.new n hd := by
  unfold construct Board.new
  by_cases h0 : n = 0
  · subst h0
    simp [JsValue.truthy]
  · have hq : (n : Rat) ≠ 0 := by exact_mod_cast h0
    simp only [JsValue.truthy, hq, ne_eq, not_false_eq_true, decide_True, Bool.not_true,
      Bool.false_eq_true, if_false, h0]
    by_cases h8 : n = 8
    · subst h8; simp [List.find?]
    · by_cases h12 : n = 12
      · subst h12; simp [List.find?]
      · by_cases h16 : n = 16
        · subst h16; simp [List.find?]
        · have e8 : ¬ ((n : Rat) = 8) := by exact_mod_cast h8
          have e12 : ¬ ((n : Rat) = 12) := by exact_mod_cast h12
          have e16 : ¬ ((n : Rat) = 16) := by exact_mod_cast h16
          simp [List.find?, h8, h12, h16, e8, e12, e16]

theorem construct_finite (q : Rat) (hd : Option Nat) :
    construct (.number (.finite q)) hd =
      if q = 8 then .ok { sqrt := 8, hintDuration := hd.getD 2500, board := setBoard 8 }
      else if q = 12 then .ok { sqrt := 12, hintDuration := hd.getD 2500, board := setBoard 12 }
      else if q = 16 then .ok { sqrt := 16, hintDuration := hd.getD 2500, board := setBoard 16 }
      else if q = 0 then .error (.invalid "boardSqrt is required")
      else .error (.invalid "Invalid boardSqrt") := by
  unfold construct
  by_cases h8 : q = 8
  · subst h8; simp [JsValue.truthy, List.find?]
  · by_cases h12 : q = 12
    · subst h12; simp [JsValue.truthy, List.find?]
    · by_cases h16 : q = 16
      · subst h16; simp [JsValue.truthy, List.find?]
      · by_cases h0 : q = 0
        · subst h0; simp [JsValue.truthy]
        · simp [JsValue.truthy, List.find?, h8, h12, h16, h0]

/-- C12: constructing a board succeeds exactly when the side length is the number 8, 12 or
16, and then the board has that side, the given hint duration (2500 when omitted) and the
new grid.  An omitted side length, the string `'8'`, the number `0` and every other value
give an error. -/
theorem construct_succeeds_iff (v : JsValue) (hd : Option Nat) :
    ((∃ b, construct v hd = .ok b) ↔
        (v = .number (.finite 8) ∨ v = .number (.finite 12) ∨ v = .number (.finite 16))) ∧
      (∀ b, construct v hd = .ok b →
        b.sqrt ∈ [8, 12, 16] ∧ v = .number (.finite (b.sqrt : Rat)) ∧
          b.hintDuration = hd.getD 2500 ∧ b.board = setBoard b.sqrt) ∧
      construct .undefined hd = .error (.invalid "boardSqrt is required") ∧
      construct (.string "8") hd = .error (.invalid "boardSqrt must be a number") ∧
      construct (.number (.finite 0)) hd = .error (.invalid "boardSqrt is required") ∧
      construct (.number (.finite 10)) hd = .error (.invalid "Invalid boardSqrt") ∧
      construct (.number .nan) hd = .error (.invalid "boardSqrt is required") := by
  have hok : ∀ b, construct v hd = .ok b →
      b.sqrt ∈ [8, 12, 16] ∧ v = .number (.finite (b.sqrt : Rat)) ∧
        b.hintDuration = hd.getD 2500 ∧ b.board = setBoard b.sqrt := by
    intro b hb
    cases v with
    | number x =>
      cases x with
      | finite q =>
        rw [construct_finite] at hb
        split at hb
        · cases hb; subst_vars; simp
        · split at hb
          · cases hb; subst_vars; simp
          · split at hb
            · cases hb; subst_vars; simp
            · split at hb <;> cases hb
      | nan => simp [construct, JsValue.truthy] at hb
      | infinity s => simp [construct, JsValue.truthy, List.find?] at hb
    | undefined => simp [construct, JsValue.truthy] at hb
    | null => simp [construct, JsValue.truthy] at hb
    | bool s => cases s <;> simp [construct, JsValue.truthy] at hb
    | string s => by_cases hs : s = "" <;> simp [construct, JsValue.truthy, hs] at hb
    | object => simp [construct, JsValue.truthy] at hb
  refine ⟨⟨?_, ?_⟩, hok, ?_, ?_, ?_, ?_, ?_⟩
  · rintro ⟨b, hb⟩
    obtain ⟨hmem, hv, _, _⟩ := hok b hb
    simp only [List.mem_cons, List.mem_singleton, List.not_mem_nil, or_false] at hmem
    rcases hmem with h | h | h <;> rw [h] at hv <;> simp [hv]
  · rintro (rfl | rfl | rfl) <;> rw [construct_finite] <;> simp
  · simp [construct, JsValue.truthy]
  · simp [construct, JsValue.truthy]
  · rw [construct_finite]; simp
  · rw [construct_finite]; norm_num
  · simp [construct, JsValue.truthy]

/-! ## The check of the mine count -/

theorem foldlM_markMine_eq_markMines (refs : List CellRef) (b : Board) :
    refs.foldlM markMine b =
      match markMines b refs with
      | (b', none) => .ok b'
      | (_, some e) => .error e := by
  induction refs generalizing b with
  | nil => rfl
  | cons rc refs ih =>
    rw [List.foldlM_cons]
    unfold markMines
    cases hstep : markMine b rc with
    | error e => rfl
    | ok b₁ => exact ih b₁

theorem setRandomMines_eq_effect (b : Board) (M : Nat) (rnd : Nat → Nat → List Nat) :
    b.setRandomMines M rnd =
      match (b.setRandomMinesEffect M rnd).thrown with
      | none => .ok (b.setRandomMinesEffect M rnd).board
      | some e => .error e := by
  unfold setRandomMines setRandomMinesEffect
  by_cases hM : M ∉ [12, 30, 64]
  · rw [if_pos hM, if_pos hM]
  · rw [if_neg hM, if_neg hM]
    simp only [foldlM_markMine_eq_markMines]
    rcases hmm : markMines b ((rnd (b.sqrt ^ 2) M).map fun randomCoord =>
      (randomCoord / b.sqrt, randomCoord % b.sqrt)) with ⟨b₁, _ | e⟩ <;> rfl

/-- C13: on a well-formed board, with a random utility that keeps to its contract (indices
below `sqrt * sqrt`), `setRandomMines` ends in an error exactly when `minesCount` is not
12, 30 or 64.  For such a count, whatever the random utility, the error is the one of the
argument check, the board is left as it was and the random utility has not been called.
The effect description agrees with the result of the call. -/
theorem setRandomMines_fails_iff (b : Board) (hwf : b.WellFormed) (M : Nat)
    (rnd : Nat → Nat → List Nat)
    (hrnd : ∀ i ∈ rnd (b.sqrt ^ 2) M, i < b.sqrt * b.sqrt) :
    ((∃ e, b.setRandomMines M rnd = .error e) ↔ M ∉ [12, 30, 64]) ∧
      (M ∉ [12, 30, 64] → ∀ rnd' : Nat → Nat → List Nat,
        b.setRandomMines M rnd' = .error (.invalid "Invalid minesCount") ∧
          (b.setRandomMinesEffect M rnd').board = b ∧
          (b.setRandomMinesEffect M rnd').thrown = some (.invalid "Invalid minesCount") ∧
          (b.setRandomMinesEffect M rnd').randomCalls = []) ∧
      (∀ rnd' : Nat → Nat → List Nat,
        ((b.setRandomMinesEffect M rnd').thrown = none →
          b.setRandomMines M rnd' = .ok (b.setRandomMinesEffect M rnd').board) ∧
        (∀ e, (b.setRandomMinesEffect M rnd').thrown = some e →
          b.setRandomMines M rnd' = .error e)) := by
  have hbad : M ∉ [12, 30, 64] → ∀ rnd' : Nat → Nat → List Nat,
      b.setRandomMines M rnd' = .error (.invalid "Invalid minesCount") ∧
        (b.setRandomMinesEffect M rnd').board = b ∧
        (b.setRandomMinesEffect M rnd').thrown = some (.invalid "Invalid minesCount") ∧
        (b.setRandomMinesEffect M rnd').randomCalls = [] := by
    intro hM rnd'
    unfold setRandomMines setRandomMinesEffect
    rw [if_pos hM, if_pos hM]
    exact ⟨rfl, rfl, rfl, rfl⟩
  refine ⟨⟨?_, ?_⟩, hbad, ?_⟩
  · rintro ⟨e, he⟩ hM
    have hin : ∀ p ∈ (rnd (b.sqrt ^ 2) M).map (fun i => (i / b.sqrt, i % b.sqrt)),
        p.1 < b.sqrt ∧ p.2 < b.sqrt := by
      intro p hp
      obtain ⟨i, hi, rfl⟩ := List.mem_map.1 hp
      exact coordsOf_lt (hrnd i hi)
    have hmark := foldlM_markMine hwf _ hin
    unfold setRandomMines at he
    rw [if_neg (not_not.2 hM)] at he
    simp only [hmark] at he
    cases he
  · intro hM
    exact ⟨_, (hbad hM rnd).1⟩
  · intro rnd'
    have h := setRandomMines_eq_effect b M rnd'
    constructor
    · intro hnone
      rw [hnone] at h
      exact h
    · intro e hsome
      rw [hsome] at h
      exact h

theorem setRandomMines_fails_iff_witness :
    (Board.mk 8 2500 (setBoard 8)).setRandomMines 13 (fun _ count => List.range count) =
        .error (.invalid "Invalid minesCount") ∧
      ((Board.mk 8 2500 (setBoard 8)).setRandomMinesEffect 13
        (fun _ count => List.range count)).randomCalls = [] := by
  have h := ((setRandomMines_fails_iff (Board.mk 8 2500 (setBoard 8))
    (wellFormed_setBoard 8 2500) 13 (fun _ count => List.range count)
    (by intro i hi; have := List.mem_range.1 hi; show i < 8 * 8; omega)).2.1 (by decide))
    (fun _ count => List.range count)
  exact ⟨h.1, h.2.2.2⟩

/-! ## The render calls of a reveal -/

theorem revealCellLog_fst
    {recurse : Board → Nat → Nat → Except BoardError Board}
    {recurseLog : Board → Nat → Nat → Except BoardError (Board × List CellRef)}
    (hr : ∀ b r c, Except.map Prod.fst (recurseLog b r c) = recurse b r c)
    (st : Board × List CellRef) (q : CellRef) :
    Except.map Prod.fst (revealCellLog recurseLog st q) = revealCell recurse st.1 q := by
  unfold revealCellLog revealCell
  cases hcell : st.1.cellAt q.1 q.2 with
  | none => rfl
  | some cell =>
    simp only
    split
    · rfl
    · split
      · rfl
      · rw [← hr]
        cases recurseLog (st.1.modifyCell q fun cell => cell.setState { isShown := some true })
          cell.coords.1 cell.coords.2 <;> rfl

theorem revealLoopLog_fst
    {recurse : Board → Nat → Nat → Except BoardError Board}
    {recurseLog : Board → Nat → Nat → Except BoardError (Board × List CellRef)}
    (hr : ∀ b r c, Except.map Prod.fst (recurseLog b r c) = recurse b r c)
    (refs : List CellRef) (st : Board × List CellRef) :
    Except.map Prod.fst (refs.foldlM (revealCellLog recurseLog) st) =
      refs.foldlM (revealCell recurse) st.1 := by
  induction refs generalizing st with
  | nil => rfl
  | cons q refs ih =>
    rw [List.foldlM_cons, List.foldlM_cons, ← revealCellLog_fst hr st q]
    cases revealCellLog recurseLog st q with
    | error e => rfl
    | ok st₁ => exact ih st₁

theorem revealSurroundingTargetCellsLog_fst (n : Nat) :
    ∀ b tr tc, Except.map Prod.fst (revealSurroundingTargetCellsLog n b tr tc) =
      revealSurroundingTargetCells n b tr tc := by
  induction n with
  | zero => intro b tr tc; rfl
  | succ n ih =>
    intro b tr tc
    unfold revealSurroundingTargetCellsLog revealSurroundingTargetCells
    cases hcell : b.cellAt tr tc with
    | none => rfl
    | some cell =>
      simp only
      split
      · rfl
      · exact revealLoopLog_fst ih _ (b, [])

/-- C15: when the cell at the target has a nonzero `surroundingMinesCount` or is a mine,
`revealSurroundingTargetCells` returns the board it was given, with every cell as it was,
and renders no cell.  The board of the recording variant is always the board of the
method. -/
theorem revealSurroundingTargetCells_numbered_target (b : Board) (tr tc : Nat) (cell : Cell)
    (hcell : b.cellAt tr tc = some cell)
    (hnum : cell.surroundingMinesCount ≠ 0 ∨ cell.isMine = true) :
    (∀ fuel, revealSurroundingTargetCells (fuel + 1) b tr tc = .ok b) ∧
      (∀ fuel, revealSurroundingTargetCellsLog (fuel + 1) b tr tc = .ok (b, [])) ∧
      (∀ fuel (b₀ : Board) (r c : Nat),
        Except.map Prod.fst (revealSurroundingTargetCellsLog fuel b₀ r c) =
          revealSurroundingTargetCells fuel b₀ r c) := by
  have hguard : (cell.surroundingMinesCount != 0 || cell.isMine) = true := by
    rcases hnum with h | h
    · simp [h]
    · simp [h]
  refine ⟨?_, ?_, fun fuel b₀ r c => revealSurroundingTargetCellsLog_fst fuel b₀ r c⟩
  · intro fuel
    simp only [revealSurroundingTargetCells, hcell]
    rw [if_pos hguard]
  · intro fuel
    simp only [revealSurroundingTargetCellsLog, hcell]
    rw [if_pos hguard]

theorem revealSurroundingTargetCells_numbered_target_witness :
    revealSurroundingTargetCellsLog 1
        ((Board.mk 8 2500 (setBoard 8)).modifyCell (2, 2)
          fun cell => { cell with surroundingMinesCount := 3 }) 2 2 =
      .ok ((Board.mk 8 2500 (setBoard 8)).modifyCell (2, 2)
          fun cell => { cell with surroundingMinesCount := 3 }, []) :=
  (revealSurroundingTargetCells_numbered_target
    ((Board.mk 8 2500 (setBoard 8)).modifyCell (2, 2)
      fun cell => { cell with surroundingMinesCount := 3 }) 2 2
    { rowIdx := 2, columnIdx := 2, surroundingMinesCount := 3 } (by decide)
    (Or.inl (by decide))).2.1 0

/-! ## The region of a reveal -/

theorem BlankReach.of_shownOnly {b b' : Board} (h : ShownOnly b b') {t p : CellRef}
    (hp : BlankReach b' t p) : BlankReach b t p := by
  induction hp with
  | start h0 => exact BlankReach.start ((h.blankAt_iff _).1 h0)
  | step _ hadj hq ih => exact BlankReach.step ih hadj ((h.blankAt_iff _).1 hq)

theorem BlankReach.append {b : Board} {t q p : CellRef} (h₁ : BlankReach b t q)
    (h₂ : BlankReach b q p) : BlankReach b t p := by
  induction h₂ with
  | start _ => exact h₁
  | step _ hadj hq ih => exact BlankReach.step ih hadj hq

theorem InRevealRegion.region_of_shownOnly {b b₁ : Board} (h : ShownOnly b b₁) {t q p : CellRef}
    (hq : BlankReach b t q) (hp : InRevealRegion b₁ q p) : InRevealRegion b t p := by
  obtain ⟨hsafe, hcase⟩ := hp
  refine ⟨(h.safeAt_iff p).1 hsafe, ?_⟩
  rcases hcase with rfl | hreach | ⟨z, hz, hadj⟩
  · exact Or.inr (Or.inl hq)
  · exact Or.inr (Or.inl (hq.append (hreach.of_shownOnly h)))
  · exact Or.inr (Or.inr ⟨z, hq.append (hz.of_shownOnly h), hadj⟩)

theorem revealCell_region (n : Nat) (recurse : Board → Nat → Nat → Except BoardError Board)
    (hrec : ∀ b tr tc, b.WellFormed → tr < b.sqrt → tc < b.sqrt → b.unshownCount < n →
      ∃ b', recurse b tr tc = .ok b' ∧ ShownOnly b b' ∧
        ∀ p, ShownAt b' p → ShownAt b p ∨ InRevealRegion b (tr, tc) p)
    {b : Board} (hwf : b.WellFormed) (t q : CellRef) (ht : BlankAt b t)
    (hq : q = t ∨ orthAdj t q) (hq1 : q.1 < b.sqrt) (hq2 : q.2 < b.sqrt)
    (hn : b.unshownCount ≤ n) :
    ∃ b', revealCell recurse b q = .ok b' ∧ ShownOnly b b' ∧
      ∀ p, ShownAt b' p → ShownAt b p ∨ InRevealRegion b t p := by
  obtain ⟨cell, hcell, hr, hc⟩ := hwf.cellAt_of_lt hq1 hq2
  rw [revealCell_eq recurse b q cell hcell]
  by_cases hmine : cell.isMine = true
  · rw [if_pos hmine]
    exact ⟨b, rfl, ShownOnly.refl b, fun p hp => Or.inl hp⟩
  · rw [if_neg hmine]
    have hm : cell.isMine = false := by simpa using hmine
    have hso := shownOnly_markShown hcell hm
    have hsh : ShownAt (b.modifyCell q fun cell => cell.setState { isShown := some true }) q :=
      shownAt_markShown hcell
    have hqreg : InRevealRegion b t q := by
      refine ⟨⟨cell, hcell, hm⟩, ?_⟩
      rcases hq with h | h
      · exact Or.inl h
      · exact Or.inr (Or.inr ⟨t, BlankReach.start ht, h⟩)
    have hmark : ∀ p, ShownAt (b.modifyCell q fun cell =>
        cell.setState { isShown := some true }) p → ShownAt b p ∨ InRevealRegion b t p := by
      intro p hp
      rcases shownAt_of_markShown hp with h | h
      · subst h
        exact Or.inr hqreg
      · exact Or.inl h
    by_cases hrecurse : cell.surroundingMinesCount = 0 ∧ cell.isShown = false
    · rw [if_pos hrecurse, hr, hc]
      have hunshown : ¬ ShownAt b q := by
        rintro ⟨x, hx, hxs⟩
        rw [hcell] at hx
        cases hx
        rw [hrecurse.2] at hxs
        cases hxs
      have hlt := hso.unshownCount_lt hunshown hsh
      obtain ⟨b', hb', hso', hreg⟩ := hrec _ q.1 q.2 (hso.wellFormed hwf) hq1 hq2
        (Nat.lt_of_lt_of_le hlt hn)
      have hqreach : BlankReach b t q := by
        rcases hq with h | h
        · rw [h]; exact BlankReach.start ht
        · exact BlankReach.step (BlankReach.start ht) h ⟨cell, hcell, hm, hrecurse.1⟩
      refine ⟨b', hb', hso.trans hso', ?_⟩
      intro p hp
      rcases hreg p hp with h | h
      · exact hmark p h
      · exact Or.inr (h.region_of_shownOnly hso hqreach)
    · rw [if_neg hrecurse]
      exact ⟨_, rfl, hso, hmark⟩

theorem revealLoop_region (n : Nat) (recurse : Board → Nat → Nat → Except BoardError Board)
    (hrec : ∀ b tr tc, b.WellFormed → tr < b.sqrt → tc < b.sqrt → b.unshownCount < n →
      ∃ b', recurse b tr tc = .ok b' ∧ ShownOnly b b' ∧
        ∀ p, ShownAt b' p → ShownAt b p ∨ InRevealRegion b (tr, tc) p)
    (t : CellRef) (refs : List CellRef) {b : Board} (hwf : b.WellFormed) (ht : BlankAt b t)
    (hin : ∀ q ∈ refs, q.1 < b.sqrt ∧ q.2 < b.sqrt ∧ (q = t ∨ orthAdj t q))
    (hn : b.unshownCount ≤ n) :
    ∃ b', refs.foldlM (revealCell recurse) b = .ok b' ∧ ShownOnly b b' ∧
      ∀ p, ShownAt b' p → ShownAt b p ∨ InRevealRegion b t p := by
  induction refs generalizing b with
  | nil => exact ⟨b, rfl, ShownOnly.refl b, fun p hp => Or.inl hp⟩
  | cons q refs ih =>
    obtain ⟨hq1, hq2, hq⟩ := hin q (List.mem_cons_self _ _)
    obtain ⟨b₁, hb₁, hso₁, hreg₁⟩ := revealCell_region n recurse hrec hwf t q ht hq hq1 hq2 hn
    have hin₁ : ∀ a ∈ refs, a.1 < b₁.sqrt ∧ a.2 < b₁.sqrt ∧ (a = t ∨ orthAdj t a) := by
      intro a ha
      rw [hso₁.1]
      exact hin a (List.mem_cons_of_mem _ ha)
    obtain ⟨b₂, hb₂, hso₂, hreg₂⟩ := ih (hso₁.wellFormed hwf) ((hso₁.blankAt_iff t).2 ht) hin₁
      (Nat.le_trans hso₁.unshownCount_le hn)
    refine ⟨b₂, ?_, hso₁.trans hso₂, ?_⟩
    · rw [List.foldlM_cons, hb₁]
      exact hb₂
    · intro p hp
      rcases hreg₂ p hp with h | h
      · exact hreg₁ p h
      · exact Or.inr (h.region_of_shownOnly hso₁ (BlankReach.start ht))

theorem revealSurroundingTargetCells_region_aux (n : Nat) :
    ∀ b tr tc, b.WellFormed → tr < b.sqrt → tc < b.sqrt → b.unshownCount < n →
      ∃ b', revealSurroundingTargetCells n b tr tc = .ok b' ∧ ShownOnly b b' ∧
        ∀ p, ShownAt b' p → ShownAt b p ∨ InRevealRegion b (tr, tc) p := by
  induction n with
  | zero => intro b tr tc _ _ _ h; exact absurd h (Nat.not_lt_zero _)
  | succ n ih =>
    intro b tr tc hwf htr htc hn
    obtain ⟨cell, hcell, _, _⟩ := hwf.cellAt_of_lt htr htc
    rw [revealSurroundingTargetCells_succ n b tr tc cell hcell]
    by_cases hblank : cell.surroundingMinesCount = 0 ∧ cell.isMine = false
    · rw [if_pos hblank]
      have hmem : ∀ q : CellRef, q ∈ b.getSurroundingCells tr tc { excludeDiagonalCells := true } ↔
          (q.1 < b.sqrt ∧ q.2 < b.sqrt ∧ (q = (tr, tc) ∨ orthAdj (tr, tc) q)) := by
        intro q
        rw [mem_getSurroundingCells hwf, isLegitCell_orthogonal]
      exact revealLoop_region n _ ih (tr, tc)
        (b.getSurroundingCells tr tc { excludeDiagonalCells := true }) hwf
        ⟨cell, hcell, hblank.2, hblank.1⟩ (fun q hq => (hmem q).1 hq) (Nat.le_of_lt_succ hn)
    · rw [if_neg hblank]
      exact ⟨b, rfl, ShownOnly.refl b, fun p hp => Or.inl hp⟩

/-- C19: on a well-formed board and for an in-range target, the board that
`revealSurroundingTargetCells` returns has every shown cell still shown, and every cell
that was not shown and now is lies in the region of the reveal: it is not a mine, and it is
the target, or a zero-count cell reachable from the target through orthogonally adjacent
zero-count cells that are not mines, or orthogonally adjacent to such a cell.  A cell
outside the region has the `isShown` it had. -/
theorem revealSurroundingTargetCells_region (b : Board) (hwf : b.WellFormed) (tr tc : Nat)
    (htr : tr < b.sqrt) (htc : tc < b.sqrt) :
    ∃ b', (∀ fuel, b.unshownCount < fuel →
        revealSurroundingTargetCells fuel b tr tc = .ok b') ∧
      ∀ r c x, b.cellAt r c = some x → ∃ y, b'.cellAt r c = some y ∧
        (x.isShown = true → y.isShown = true) ∧
        (x.isShown = false → y.isShown = true → InRevealRegion b (tr, tc) (r, c)) ∧
        (¬ InRevealRegion b (tr, tc) (r, c) → y.isShown = x.isShown) := by
  obtain ⟨b', hb', hso, hreg⟩ := revealSurroundingTargetCells_region_aux (b.unshownCount + 1)
    b tr tc hwf htr htc (Nat.lt_succ_self _)
  refine ⟨b', fun fuel hf => revealSurroundingTargetCells_fuel_le hf b tr tc b' hb', ?_⟩
  intro r c x hx
  obtain ⟨s, hy⟩ := hso.cellAt_after hx
  have hnew : x.isShown = false →
      (x.isShown || (s && !x.isMine)) = true → InRevealRegion b (tr, tc) (r, c) := by
    intro hxs hys
    rcases hreg (r, c) ⟨_, hy, hys⟩ with ⟨x', hx', hxs'⟩ | h
    · rw [hx] at hx'
      cases hx'
      rw [hxs] at hxs'
      cases hxs'
    · exact h
  refine ⟨_, hy, ?_, hnew, ?_⟩
  · intro hxs
    simp [hxs]
  · intro hout
    cases hxs : x.isShown
    · cases hys : (x.isShown || (s && !x.isMine))
      · simpa [hxs] using hys
      · exact absurd (hnew hxs hys) hout
    · simp

theorem revealSurroundingTargetCells_region_witness :
    ∃ b', (∀ fuel, (Board.mk 8 2500 (setBoard 8)).unshownCount < fuel →
        revealSurroundingTargetCells fuel (Board.mk 8 2500 (setBoard 8)) 1 1 = .ok b') ∧
      ∃ y, b'.cellAt 0 0 = some y := by
  obtain ⟨b', h1, h2⟩ := revealSurroundingTargetCells_region (Board.mk 8 2500 (setBoard 8))
    (wellFormed_setBoard 8 2500) 1 1 (by decide) (by decide)
  obtain ⟨y, hy, _⟩ := h2 0 0 { rowIdx := 0, columnIdx := 0 } (by decide)
  exact ⟨b', h1, y, hy⟩

/-! ## Hint cells are shown -/

theorem modifyCell_all {P : Cell → Prop} {f : Cell → Cell} (hf : ∀ x, P x → P (f x))
    {b : Board} (hb : ∀ r c x, b.cellAt r c = some x → P x) (ref : CellRef) :
    ∀ r c x, (b.modifyCell ref f).cellAt r c = some x → P x := by
  intro r c x hx
  rw [cellAt_modifyCell] at hx
  split at hx
  · cases hold : b.cellAt r c with
    | none => rw [hold] at hx; cases hx
    | some y =>
      rw [hold] at hx
      cases hx
      exact hf y (hb r c y hold)
  · exact hb r c x hx

theorem foldl_modifyCell_all {P : Cell → Prop} {f : Cell → Cell} (hf : ∀ x, P x → P (f x))
    (refs : List CellRef) {b : Board} (hb : ∀ r c x, b.cellAt r c = some x → P x) :
    ∀ r c x, (refs.foldl (fun b ref => b.modifyCell ref f) b).cellAt r c = some x → P x := by
  induction refs generalizing b with
  | nil => exact hb
  | cons ref refs ih =>
    rw [List.foldl_cons]
    exact ih (modifyCell_all hf hb ref)

theorem setSurroundingMineCount_all {P : Cell → Prop}
    (hf : ∀ x, P x → P x.incrementSurroundingMinesCount)
    {b : Board} (hb : ∀ r c x, b.cellAt r c = some x → P x) (tr tc : Nat) :
    ∀ r c x, (b.setSurroundingMineCount tr tc).cellAt r c = some x → P x := by
  unfold setSurroundingMineCount
  exact foldl_modifyCell_all (fun x hx => by split; exact hx; exact hf x hx) _ hb

theorem foldl_setSurroundingMineCount_all {P : Cell → Prop}
    (hf : ∀ x, P x → P x.incrementSurroundingMinesCount)
    (mines : List CellRef) {b : Board} (hb : ∀ r c x, b.cellAt r c = some x → P x) :
    ∀ r c x, (mines.foldl (fun b rc => b.setSurroundingMineCount rc.1 rc.2) b).cellAt r c =
      some x → P x := by
  induction mines generalizing b with
  | nil => exact hb
  | cons m mines ih =>
    rw [List.foldl_cons]
    exact ih (setSurroundingMineCount_all hf hb m.1 m.2)

theorem markMines_all {P : Cell → Prop} (hf : ∀ x : Cell, P x → P { x with isMine := true })
    (refs : List CellRef) {b : Board} (hb : ∀ r c x, b.cellAt r c = some x → P x) :
    ∀ r c x, (markMines b refs).1.cellAt r c = some x → P x := by
  induction refs generalizing b with
  | nil => exact hb
  | cons rc refs ih =>
    unfold markMines
    cases hstep : markMine b rc with
    | error e => exact hb
    | ok b₁ =>
      simp only
      apply ih
      unfold markMine at hstep
      split at hstep
      · cases hstep
      · cases hstep
        exact modifyCell_all hf hb rc

theorem setRandomMinesEffect_all {P : Cell → Prop}
    (hmine : ∀ x : Cell, P x → P { x with isMine := true })
    (hinc : ∀ x, P x → P x.incrementSurroundingMinesCount)
    {b : Board} (hb : ∀ r c x, b.cellAt r c = some x → P x) (M : Nat)
    (rnd : Nat → Nat → List Nat) :
    ∀ r c x, (b.setRandomMinesEffect M rnd).board.cellAt r c = some x → P x := by
  unfold setRandomMinesEffect
  split
  · exact hb
  · simp only
    have hmark := markMines_all hmine
      ((rnd (b.sqrt ^ 2) M).map fun randomCoord => (randomCoord / b.sqrt, randomCoord % b.sqrt))
      hb
    rcases hmm : markMines b ((rnd (b.sqrt ^ 2) M).map fun randomCoord =>
      (randomCoord / b.sqrt, randomCoord % b.sqrt)) with ⟨b₁, _ | e⟩
    · rw [hmm] at hmark
      exact foldl_setSurroundingMineCount_all hinc _ hmark
    · rw [hmm] at hmark
      exact hmark

theorem markMines_sqrt (refs : List CellRef) (b : Board) :
    (markMines b refs).1.sqrt = b.sqrt := by
  induction refs generalizing b with
  | nil => rfl
  | cons rc refs ih =>
    unfold markMines
    cases hstep : markMine b rc with
    | error e => rfl
    | ok b₁ =>
      simp only
      rw [ih]
      unfold markMine at hstep
      split at hstep
      · cases hstep
      · cases hstep
        rfl

theorem setRandomMinesEffect_sqrt (b : Board) (M : Nat) (rnd : Nat → Nat → List Nat) :
    (b.setRandomMinesEffect M rnd).board.sqrt = b.sqrt := by
  unfold setRandomMinesEffect
  split
  · rfl
  · simp only
    have hs := markMines_sqrt
      ((rnd (b.sqrt ^ 2) M).map fun randomCoord => (randomCoord / b.sqrt, randomCoord % b.sqrt)) b
    rcases hmm : markMines b ((rnd (b.sqrt ^ 2) M).map fun randomCoord =>
      (randomCoord / b.sqrt, randomCoord % b.sqrt)) with ⟨b₁, _ | e⟩
    · rw [hmm] at hs
      simp only
      rw [foldl_setSurroundingMineCount_sqrt]
      exact hs
    · rw [hmm] at hs
      exact hs

theorem modifyCell_map {α : Type} (proj : Cell → α) {f : Cell → Cell}
    (hf : ∀ x, proj (f x) = proj x) (b : Board) (ref : CellRef) (r c : Nat) :
    ((b.modifyCell ref f).cellAt r c).map proj = (b.cellAt r c).map proj := by
  rw [cellAt_modifyCell]
  split
  · cases b.cellAt r c <;> simp [hf]
  · rfl

theorem setSurroundingMineCount_map {α : Type} (proj : Cell → α)
    (hf : ∀ x, proj x.incrementSurroundingMinesCount = proj x) (b : Board) (tr tc r c : Nat) :
    ((b.setSurroundingMineCount tr tc).cellAt r c).map proj = (b.cellAt r c).map proj := by
  unfold setSurroundingMineCount
  exact cellAt_foldl_modifyCell_map proj _ (fun x => by split; rfl; exact hf x) _ b r c

theorem foldl_setSurroundingMineCount_map {α : Type} (proj : Cell → α)
    (hf : ∀ x, proj x.incrementSurroundingMinesCount = proj x) (mines : List CellRef)
    (b : Board) (r c : Nat) :
    ((mines.foldl (fun b rc => b.setSurroundingMineCount rc.1 rc.2) b).cellAt r c).map proj =
      (b.cellAt r c).map proj := by
  induction mines generalizing b with
  | nil => rfl
  | cons m mines ih => rw [List.foldl_cons, ih, setSurroundingMineCount_map proj hf]

theorem markMines_map {α : Type} (proj : Cell → α)
    (hf : ∀ x : Cell, proj { x with isMine := true } = proj x) (refs : List CellRef)
    (b : Board) (r c : Nat) :
    ((markMines b refs).1.cellAt r c).map proj = (b.cellAt r c).map proj := by
  induction refs generalizing b with
  | nil => rfl
  | cons rc refs ih =>
    unfold markMines
    cases hstep : markMine b rc with
    | error e => rfl
    | ok b₁ =>
      simp only
      rw [ih]
      unfold markMine at hstep
      split at hstep
      · cases hstep
      · cases hstep
        exact modifyCell_map proj hf b rc r c

theorem setRandomMinesEffect_map {α : Type} (proj : Cell → α)
    (hmine : ∀ x : Cell, proj { x with isMine := true } = proj x)
    (hinc : ∀ x, proj x.incrementSurroundingMinesCount = proj x)
    (b : Board) (M : Nat) (rnd : Nat → Nat → List Nat) (r c : Nat) :
    ((b.setRandomMinesEffect M rnd).board.cellAt r c).map proj = (b.cellAt r c).map proj := by
  unfold setRandomMinesEffect
  split
  · rfl
  · simp only
    have hmark := markMines_map proj hmine
      ((rnd (b.sqrt ^ 2) M).map fun randomCoord => (randomCoord / b.sqrt, randomCoord % b.sqrt))
      b r c
    rcases hmm : markMines b ((rnd (b.sqrt ^ 2) M).map fun randomCoord =>
      (randomCoord / b.sqrt, randomCoord % b.sqrt)) with ⟨b₁, _ | e⟩
    · rw [hmm] at hmark
      simp only
      rw [foldl_setSurroundingMineCount_map proj hinc]
      exact hmark
    · rw [hmm] at hmark
      exact hmark

theorem WellFormed.of_coords_eq {b b' : Board} (h : b.WellFormed) (hs : b'.sqrt = b.sqrt)
    (hc : ∀ r c, (b'.cellAt r c).map Cell.coords = (b.cellAt r c).map Cell.coords) :
    b'.WellFormed := by
  intro r c
  rw [hc, hs]
  exact h r c

theorem construct_wellFormed {v : JsValue} {hd : Option Nat} {b : Board}
    (h : construct v hd = .ok b) : b.WellFormed ∧
      ∀ r c x, b.cellAt r c = some x → x.isHint = false := by
  have hshape : ∃ S hd', b = Board.mk S hd' (setBoard S) := by
    cases v with
    | number x =>
      cases x with
      | finite q =>
        rw [construct_finite] at h
        split at h
        · cases h; exact ⟨_, _, rfl⟩
        · split at h
          · cases h; exact ⟨_, _, rfl⟩
          · split at h
            · cases h; exact ⟨_, _, rfl⟩
            · split at h <;> cases h
      | nan => simp [construct, JsValue.truthy] at h
      | infinity s => simp [construct, JsValue.truthy, List.find?] at h
    | undefined => simp [construct, JsValue.truthy] at h
    | null => simp [construct, JsValue.truthy] at h
    | bool s => cases s <;> simp [construct, JsValue.truthy] at h
    | string s => by_cases hs : s = "" <;> simp [construct, JsValue.truthy, hs] at h
    | object => simp [construct, JsValue.truthy] at h
  obtain ⟨S, hd', rfl⟩ := hshape
  refine ⟨wellFormed_setBoard S hd', ?_⟩
  intro r c x hx
  rw [cellAt_setBoard] at hx
  split at hx
  · cases hx; rfl
  · cases hx

theorem reachable_invariant {s : GameState} (h : Reachable s) :
    s.board.WellFormed ∧
      ∀ r c x, s.board.cellAt r c = some x → (x.isHint = true → x.isShown = true) := by
  induction h with
  | init v hd b hb =>
    obtain ⟨hwf, hno⟩ := construct_wellFormed hb
    refine ⟨hwf, ?_⟩
    intro r c x hx hh
    rw [hno r c x hx] at hh
    cases hh
  | @step s s' _ hstep ih =>
    obtain ⟨hwf, hinv⟩ := ih
    cases hstep with
    | setRandomMines M rnd =>
      refine ⟨hwf.of_coords_eq (setRandomMinesEffect_sqrt _ _ _)
        (setRandomMinesEffect_map Cell.coords (fun _ => rfl) (fun _ => rfl) _ M rnd), ?_⟩
      exact setRandomMinesEffect_all (fun _ hx => hx) (fun _ hx => hx) hinv M rnd
    | reveal fuel tr tc b' hb' =>
      obtain ⟨_, _, hso, _⟩ := revealSurroundingTargetCells_ok_post hwf hb'
      refine ⟨hso.wellFormed hwf, ?_⟩
      intro r c y hy hh
      obtain ⟨x, hx, flag, rfl⟩ := hso.cellAt_before hy
      have := hinv r c x hx hh
      simp [this]
    | hintShow tr tc =>
      refine ⟨hwf.handleHintCellClick tr tc, ?_⟩
      show ∀ r c x, (s.board.handleHintCellClick tr tc).1.cellAt r c = some x → _
      unfold handleHintCellClick
      exact foldl_modifyCell_all
        (fun x hx => by
          split
          · exact hx
          · intro _; rfl) _ hinv
    | hintHide i hintedCells _ =>
      constructor
      · refine hwf.of_coords_eq ?_ ?_
        · unfold hideCells
          exact foldl_modifyCell_sqrt _ _ _
        · intro r c
          unfold hideCells
          exact cellAt_foldl_modifyCell_map Cell.coords _ (fun x => by split <;> rfl) _ _ r c
      · show ∀ r c x, (s.board.hideCells hintedCells).cellAt r c = some x → _
        unfold hideCells
        exact foldl_modifyCell_all
          (fun x hx => by
            split
            · exact hx
            · intro hh; cases hh) _ hinv

/-- C20: in every state reachable from a newly constructed board by any sequence of
`setRandomMines` calls, reveals, hint show steps and firings of pending hint timers, every
cell that is flagged hint is shown. -/
theorem reachable_hint_is_shown (s : GameState) (h : Reachable s) :
    ∀ r c cell, s.board.cellAt r c = some cell → cell.isHint = true → cell.isShown = true :=
  (reachable_invariant h).2

theorem reachable_hint_is_shown_witness :
    Reachable { board := ((Board.mk 8 2500 (setBoard 8)).handleHintCellClick 0 0).1,
                timers := [] ++ [((Board.mk 8 2500 (setBoard 8)).handleHintCellClick 0 0).2] } ∧
      (({ rowIdx := 0, columnIdx := 0, isShown := true, isHint := true } : Cell).isShown =
        true) :=
  have hr : Reachable
      { board := ((Board.mk 8 2500 (setBoard 8)).handleHintCellClick 0 0).1,
        timers := [] ++ [((Board.mk 8 2500 (setBoard 8)).handleHintCellClick 0 0).2] } :=
    Reachable.step
      (Reachable.init (.number (.finite 8)) none (Board.mk 8 2500 (setBoard 8))
        (by rw [construct_finite]; simp))
      (Step.hintShow { board := Board.mk 8 2500 (setBoard 8), timers := [] } 0 0)
  ⟨hr, reachable_hint_is_shown _ hr 0 0
    { rowIdx := 0, columnIdx := 0, isShown := true, isHint := true } (by decide) rfl⟩

end Board

/-! ## Clones -/

namespace BoardObject

theorem cloneRow_spec (row : List Nat) :
    ∀ store : CellStore, (∀ a ∈ row, a < store.length) →
      ∃ extra row', cloneRow store row = some (store ++ extra, row') ∧
        (∀ a' ∈ row', store.length ≤ a' ∧ a' < (store ++ extra).length) ∧
        row'.Pairwise (· < ·) ∧
        ∀ c : Nat, (row'[c]?).bind (fun a' : Nat => (store ++ extra)[a']?) =
          (row[c]?).bind (fun a : Nat => store[a]?) := by
  induction row with
  | nil =>
    intro store _
    exact ⟨[], [], by simp [cloneRow], by simp, List.Pairwise.nil, by simp⟩
  | cons a rest ih =>
    intro store hvalid
    have ha : a < store.length := hvalid a (List.mem_cons_self _ _)
    have hcell : store[a]? = some store[a] := List.getElem?_eq_getElem ha
    obtain ⟨extra₁, rest', hrest, hbound, hpair, hlook⟩ := ih (store ++ [store[a].clone])
      (by
        intro a₂ h₂
        have := hvalid a₂ (List.mem_cons_of_mem _ h₂)
        simp only [List.length_append, List.length_singleton]
        omega)
    refine ⟨[store[a].clone] ++ extra₁, store.length :: rest', ?_, ?_, ?_, ?_⟩
    · simp only [cloneRow, hcell, hrest, List.append_assoc]
    · intro a' ha'
      rcases List.mem_cons.1 ha' with rfl | h
      · simp
      · have := hbound a' h
        simp only [List.length_append, List.length_singleton, List.length_cons] at this ⊢
        omega
    · refine List.Pairwise.cons ?_ hpair
      intro a' h
      have := (hbound a' h).1
      simp only [List.length_append, List.length_singleton] at this
      omega
    · intro c
      cases c with
      | zero =>
        simp only [List.getElem?_cons_zero, Option.some_bind, hcell]
        rw [List.getElem?_append_right (Nat.le_refl _)]
        simp [Cell.clone]
      | succ c =>
        simp only [List.getElem?_cons_succ]
        have h := hlook c
        rw [List.append_assoc] at h
        rw [h]
        cases hc : rest[c]? with
        | none => rfl
        | some a₂ =>
          have hmem : a₂ ∈ rest := List.getElem?_mem hc
          have h₂ := hvalid a₂ (List.mem_cons_of_mem _ hmem)
          simp only [Option.some_bind]
          exact List.getElem?_append_left h₂

theorem addressAt_eq (o : BoardObject) (r c : Nat) :
    o.addressAt r c = (o.board[r]?).bind fun row => row[c]? := by
  unfold addressAt
  cases o.board[r]? <;> rfl

theorem cellAt_eq (o : BoardObject) (store : CellStore) (r c : Nat) :
    o.cellAt store r c = (o.addressAt r c).bind fun a => store[a]? := by
  unfold cellAt
  cases o.addressAt r c <;> rfl

theorem mem_flatten_of_addressAt {o : BoardObject} {r c a : Nat}
    (h : o.addressAt r c = some a) : a ∈ o.board.flatten := by
  rw [addressAt_eq] at h
  cases hrow : o.board[r]? with
  | none => rw [hrow] at h; cases h
  | some row =>
    rw [hrow] at h
    exact List.mem_flatten.2 ⟨row, List.getElem?_mem hrow, List.getElem?_mem h⟩

theorem cloneRows_spec (rows : List (List Nat)) :
    ∀ store : CellStore, (∀ a ∈ rows.flatten, a < store.length) →
      ∃ extra rows', cloneRows store rows = some (store ++ extra, rows') ∧
        (∀ a' ∈ rows'.flatten, store.length ≤ a' ∧ a' < (store ++ extra).length) ∧
        rows'.flatten.Pairwise (· < ·) ∧
        ∀ r c : Nat,
          ((rows'[r]?).bind fun row => row[c]?).bind (fun a' : Nat => (store ++ extra)[a']?) =
            ((rows[r]?).bind fun row => row[c]?).bind (fun a : Nat => store[a]?) := by
  induction rows with
  | nil =>
    intro store _
    exact ⟨[], [], by simp [cloneRows], by simp, by simp, by simp⟩
  | cons row rows ih =>
    intro store hvalid
    have hrowvalid : ∀ a ∈ row, a < store.length := fun a ha =>
      hvalid a (by simp [ha])
    obtain ⟨extra₁, row', hrow, hbound₁, hpair₁, hlook₁⟩ := cloneRow_spec row store hrowvalid
    obtain ⟨extra₂, rows', hrows, hbound₂, hpair₂, hlook₂⟩ := ih (store ++ extra₁)
      (by
        intro a ha
        have := hvalid a (by simp only [List.flatten_cons, List.mem_append]; exact Or.inr ha)
        simp only [List.length_append]
        omega)
    refine ⟨extra₁ ++ extra₂, row' :: rows', ?_, ?_, ?_, ?_⟩
    · simp only [cloneRows, hrow, hrows, List.append_assoc]
    · intro a' ha'
      simp only [List.flatten_cons, List.mem_append] at ha'
      rcases ha' with h | h
      · have := hbound₁ a' h
        simp only [List.length_append] at this ⊢
        omega
      · have := hbound₂ a' h
        simp only [List.length_append] at this ⊢
        omega
    · simp only [List.flatten_cons]
      rw [List.pairwise_append]
      refine ⟨hpair₁, hpair₂, ?_⟩
      intro x hx y hy
      have h₁ := (hbound₁ x hx).2
      have h₂ := (hbound₂ y hy).1
      omega
    · intro r c
      cases r with
      | zero =>
        simp only [List.getElem?_cons_zero, Option.some_bind]
        rw [← hlook₁ c]
        cases hc : row'[c]? with
        | none => rfl
        | some a' =>
          simp only [Option.some_bind]
          rw [← List.append_assoc]
          exact List.getElem?_append_left (hbound₁ a' (List.getElem?_mem hc)).2
      | succ r =>
        simp only [List.getElem?_cons_succ]
        have h := hlook₂ r c
        rw [List.append_assoc] at h
        rw [h]
        cases hrow₂ : rows[r]? with
        | none => rfl
        | some row₂ =>
          cases hc : row₂[c]? with
          | none => simp [hc]
          | some a =>
            have hmem : a ∈ (row :: rows).flatten := by
              simp only [List.flatten_cons, List.mem_append]
              exact Or.inr (List.mem_flatten.2
                ⟨row₂, List.getElem?_mem hrow₂, List.getElem?_mem hc⟩)
            simp only [Option.some_bind, hc]
            exact List.getElem?_append_left (hvalid a hmem)

theorem getElem?_writeRow_of_not_mem (row : List Nat) :
    ∀ (cells : List Cell) (store : CellStore) (a : Nat), a ∉ row →
      (writeRow store row cells)[a]? = store[a]? := by
  induction row with
  | nil => intro cells store a _; cases cells <;> rfl
  | cons a₀ rest ih =>
    intro cells store a ha
    cases cells with
    | nil => rfl
    | cons cell cells =>
      simp only [writeRow]
      rw [ih cells _ a (fun h => ha (List.mem_cons_of_mem _ h))]
      refine List.getElem?_set_ne ?_
      intro h
      exact ha (by rw [h]; exact List.mem_cons_self _ _)

theorem getElem?_writeRows_of_not_mem (rows : List (List Nat)) :
    ∀ (grid : List (List Cell)) (store : CellStore) (a : Nat), a ∉ rows.flatten →
      (writeRows store rows grid)[a]? = store[a]? := by
  induction rows with
  | nil => intro grid store a _; cases grid <;> rfl
  | cons row rows ih =>
    intro grid store a ha
    cases grid with
    | nil => rfl
    | cons cells grid =>
      simp only [writeRows]
      simp only [List.flatten_cons, List.mem_append, not_or] at ha
      rw [ih grid _ a ha.2]
      exact getElem?_writeRow_of_not_mem row cells store a ha.1

theorem cellAt_write_other (o o' : BoardObject) (store : CellStore) (b : Board)
    (hdisj : ∀ a ∈ o.board.flatten, a ∉ o'.board.flatten) (r c : Nat) :
    o.cellAt (o'.write store b) r c = o.cellAt store r c := by
  rw [cellAt_eq, cellAt_eq]
  cases ha : o.addressAt r c with
  | none => rfl
  | some a =>
    simp only [Option.some_bind]
    exact getElem?_writeRows_of_not_mem _ _ _ _ (hdisj a (mem_flatten_of_addressAt ha))

theorem cellAt_modify_other (o : BoardObject) (store : CellStore) (f : Cell → Cell) (a' : Nat)
    (hdisj : a' ∉ o.board.flatten) (r c : Nat) :
    o.cellAt (store.modify f a') r c = o.cellAt store r c := by
  rw [cellAt_eq, cellAt_eq]
  cases ha : o.addressAt r c with
  | none => rfl
  | some a =>
    simp only [Option.some_bind]
    refine List.getElem?_modify_ne f store ?_
    rintro rfl
    exact hdisj (mem_flatten_of_addressAt ha)

theorem new_of_mem {S : Nat} (hd : Nat) (hS : S ∈ [8, 12, 16]) :
    Board.new S hd = .ok (Board.mk S hd (Board.setBoard S)) := by
  have hS0 : S ≠ 0 := by
    simp only [List.mem_cons, List.mem_singleton, List.not_mem_nil, or_false] at hS
    omega
  unfold Board.new
  rw [if_neg hS0, if_neg (not_not.2 hS)]

theorem clone_spec (o : BoardObject) (store : CellStore) (hS : o.sqrt ∈ [8, 12, 16])
    (hvalid : ∀ a ∈ o.board.flatten, a < store.length) :
    ∃ extra o', o.clone store = .ok (store ++ extra, o') ∧ o'.sqrt = o.sqrt ∧
      o'.hintDuration = o.hintDuration ∧
      (∀ a' ∈ o'.board.flatten, store.length ≤ a' ∧ a' < (store ++ extra).length) ∧
      o'.board.flatten.Pairwise (· < ·) ∧
      ∀ r c, o'.cellAt (store ++ extra) r c = o.cellAt store r c := by
  obtain ⟨extra₂, rows', hrows, hbound, hpair, hlook⟩ := cloneRows_spec o.board
    (store ++ (Board.setBoard o.sqrt).flatten)
    (by
      intro a ha
      have := hvalid a ha
      simp only [List.length_append]
      omega)
  refine ⟨(Board.setBoard o.sqrt).flatten ++ extra₂,
    { sqrt := o.sqrt, hintDuration := o.hintDuration, board := rows' }, ?_, rfl, rfl, ?_, hpair,
    ?_⟩
  · unfold clone
    rw [new_of_mem o.hintDuration hS]
    simp only [hrows, List.append_assoc]
  · intro a' ha'
    have := hbound a' ha'
    simp only [List.length_append] at this ⊢
    omega
  · intro r c
    rw [cellAt_eq, cellAt_eq, addressAt_eq, addressAt_eq, ← List.append_assoc, hlook r c]
    cases ha : (o.board[r]?).bind fun row => row[c]? with
    | none => rfl
    | some a =>
      simp only [Option.some_bind]
      refine List.getElem?_append_left (hvalid a ?_)
      have hadd : o.addressAt r c = some a := by rw [addressAt_eq]; exact ha
      exact mem_flatten_of_addressAt hadd

/-- C16: for an instance whose side is 8, 12 or 16 and whose grid holds addresses of
objects of the store, `clone` succeeds; the store is only extended; the new instance has
the same size and hint duration, and the cell it holds at every `(r, c)` has the state of
the source's cell there, while every cell of the source is as it was.  No object is shared:
whatever states the cells of the clone are given afterwards, by a reveal, by either step of
a hint or by a mutation of a single cell object, every cell of the source keeps its state,
and the same holds with the two instances exchanged. -/
theorem clone_independent (o : BoardObject) (store : CellStore) (hS : o.sqrt ∈ [8, 12, 16])
    (hvalid : ∀ a ∈ o.board.flatten, a < store.length) :
    ∃ store' o', o.clone store = .ok (store', o') ∧
      (∃ extra, store' = store ++ extra) ∧
      o'.sqrt = o.sqrt ∧ o'.hintDuration = o.hintDuration ∧
      (∀ r c, o'.cellAt store' r c = o.cellAt store r c) ∧
      (∀ r c, o.cellAt store' r c = o.cellAt store r c) ∧
      (∀ a ∈ o.board.flatten, a ∉ o'.board.flatten) ∧
      (∀ (s₁ : CellStore) (b : Board) (r c : Nat),
        o.cellAt (o'.write s₁ b) r c = o.cellAt s₁ r c ∧
          o'.cellAt (o.write s₁ b) r c = o'.cellAt s₁ r c) ∧
      (∀ (s₁ s₂ : CellStore) (fuel tr tc r c : Nat),
        (o'.revealSurroundingTargetCells s₁ fuel tr tc = .ok s₂ →
          o.cellAt s₂ r c = o.cellAt s₁ r c) ∧
        (o.revealSurroundingTargetCells s₁ fuel tr tc = .ok s₂ →
          o'.cellAt s₂ r c = o'.cellAt s₁ r c)) ∧
      (∀ (s₁ : CellStore) (tr tc r c : Nat),
        o.cellAt (o'.handleHintCellClick s₁ tr tc).1 r c = o.cellAt s₁ r c ∧
          o'.cellAt (o.handleHintCellClick s₁ tr tc).1 r c = o'.cellAt s₁ r c) ∧
      (∀ (s₁ : CellStore) (hintedCells : List CellRef) (r c : Nat),
        o.cellAt (o'.hideCells s₁ hintedCells) r c = o.cellAt s₁ r c ∧
          o'.cellAt (o.hideCells s₁ hintedCells) r c = o'.cellAt s₁ r c) ∧
      (∀ (s₁ : CellStore) (f : Cell → Cell) (r c : Nat),
        (∀ a' ∈ o'.board.flatten, o.cellAt (s₁.modify f a') r c = o.cellAt s₁ r c) ∧
          (∀ a ∈ o.board.flatten, o'.cellAt (s₁.modify f a) r c = o'.cellAt s₁ r c)) := by
  obtain ⟨extra, o', hclone, hsq, hhd, hbound, _, hsame⟩ := clone_spec o store hS hvalid
  have hdisj : ∀ a ∈ o.board.flatten, a ∉ o'.board.flatten := by
    intro a ha ha'
    have h₁ := hvalid a ha
    have h₂ := (hbound a ha').1
    omega
  have hdisj' : ∀ a' ∈ o'.board.flatten, a' ∉ o.board.flatten := fun a' ha' ha =>
    hdisj a' ha ha'
  refine ⟨store ++ extra, o', hclone, ⟨extra, rfl⟩, hsq, hhd, hsame, ?_, hdisj, ?_, ?_, ?_, ?_,
    ?_⟩
  · intro r c
    rw [cellAt_eq, cellAt_eq]
    cases ha : o.addressAt r c with
    | none => rfl
    | some a =>
      simp only [Option.some_bind]
      exact List.getElem?_append_left (hvalid a (mem_flatten_of_addressAt ha))
  · intro s₁ b r c
    exact ⟨cellAt_write_other o o' s₁ b hdisj r c, cellAt_write_other o' o s₁ b hdisj' r c⟩
  · intro s₁ s₂ fuel tr tc r c
    constructor
    · intro h
      unfold revealSurroundingTargetCells at h
      split at h
      · cases h
      · cases h
        exact cellAt_write_other o o' s₁ _ hdisj r c
    · intro h
      unfold revealSurroundingTargetCells at h
      split at h
      · cases h
      · cases h
        exact cellAt_write_other o' o s₁ _ hdisj' r c
  · intro s₁ tr tc r c
    exact ⟨cellAt_write_other o o' s₁ _ hdisj r c, cellAt_write_other o' o s₁ _ hdisj' r c⟩
  · intro s₁ hintedCells r c
    exact ⟨cellAt_write_other o o' s₁ _ hdisj r c, cellAt_write_other o' o s₁ _ hdisj' r c⟩
  · intro s₁ f r c
    exact ⟨fun a' ha' => cellAt_modify_other o s₁ f a' (hdisj' a' ha') r c,
      fun a ha => cellAt_modify_other o' s₁ f a (hdisj a ha) r c⟩

set_option maxRecDepth 100000 in
/-- On the instance made for side 8: after `clone`, the show step of a hint at `(0, 0)` run
on the clone shows the clone's cell at `(0, 0)` and leaves the source's cell not shown. -/
theorem clone_then_hint_example :
    ((((fresh 8 2500).2.clone (fresh 8 2500).1).toOption.map fun x =>
      ((x.2.cellAt (x.2.handleHintCellClick x.1 0 0).1 0 0).map Cell.isShown,
        ((fresh 8 2500).2.cellAt (x.2.handleHintCellClick x.1 0 0).1 0 0).map Cell.isShown)) =
      some (some true, some false)) := by
  decide

theorem clone_independent_witness :
    (∃ store' o', (fresh 8 2500).2.clone (fresh 8 2500).1 = .ok (store', o') ∧
        o'.sqrt = 8 ∧
        ∀ r c, o'.cellAt store' r c = (fresh 8 2500).2.cellAt (fresh 8 2500).1 r c) ∧
      ((((fresh 8 2500).2.clone (fresh 8 2500).1).toOption.map fun x =>
        ((x.2.cellAt (x.2.handleHintCellClick x.1 0 0).1 0 0).map Cell.isShown,
          ((fresh 8 2500).2.cellAt (x.2.handleHintCellClick x.1 0 0).1 0 0).map
            Cell.isShown)) =
        some (some true, some false)) := by
  obtain ⟨store', o', h1, _, h3, _, h5, _⟩ := clone_independent (fresh 8 2500).2
    (fresh 8 2500).1 (by decide) (by decide)
  exact ⟨⟨store', o', h1, h3, h5⟩, clone_then_hint_example⟩

end BoardObject

/-! ## The methods run on an instance do what the methods of the embedding compute -/

namespace BoardObject

theorem getElem?_filterMap_store (store : CellStore) (row : List Nat)
    (hvalid : ∀ a ∈ row, a < store.length) :
    ∀ c : Nat, (row.filterMap fun a : Nat => store[a]?)[c]? =
      (row[c]?).bind fun a : Nat => store[a]? := by
  induction row with
  | nil => intro c; simp
  | cons a rest ih =>
    intro c
    have hlt : a < store.length := hvalid a (List.mem_cons_self _ _)
    have ha : store[a]? = some store[a] := List.getElem?_eq_getElem hlt
    rw [List.filterMap_cons_some ha]
    cases c with
    | zero => simp [ha]
    | succ c =>
      simp only [List.getElem?_cons_succ]
      exact ih (fun a₂ h₂ => hvalid a₂ (List.mem_cons_of_mem _ h₂)) c

theorem cellAt_read (o : BoardObject) (store : CellStore)
    (hvalid : ∀ a ∈ o.board.flatten, a < store.length) (r c : Nat) :
    (o.read store).cellAt r c = o.cellAt store r c := by
  rw [cellAt_eq, addressAt_eq]
  unfold read Board.cellAt
  simp only [List.getElem?_map]
  cases hrow : o.board[r]? with
  | none => rfl
  | some row =>
    simp only [Option.map_some', Option.some_bind]
    exact getElem?_filterMap_store store row
      (fun a ha => hvalid a (List.mem_flatten.2 ⟨row, List.getElem?_mem hrow, ha⟩)) c

theorem read_shape (o : BoardObject) (store : CellStore)
    (hvalid : ∀ a ∈ o.board.flatten, a < store.length) :
    (o.read store).board.map List.length = o.board.map List.length := by
  unfold read
  simp only [List.map_map]
  refine List.map_congr_left ?_
  intro row hrow
  simp only [Function.comp_apply]
  have hrowvalid : ∀ a ∈ row, a < store.length := fun a ha =>
    hvalid a (List.mem_flatten.2 ⟨row, hrow, ha⟩)
  clear hrow
  induction row with
  | nil => rfl
  | cons a rest ih =>
    have hlt : a < store.length := hrowvalid a (List.mem_cons_self _ _)
    have ha : store[a]? = some store[a] := List.getElem?_eq_getElem hlt
    rw [List.filterMap_cons_some ha, List.length_cons, List.length_cons,
      ih (fun a₂ h₂ => hrowvalid a₂ (List.mem_cons_of_mem _ h₂))]

theorem length_writeRow (row : List Nat) :
    ∀ (cells : List Cell) (store : CellStore), (writeRow store row cells).length = store.length := by
  induction row with
  | nil => intro cells store; cases cells <;> rfl
  | cons a rest ih =>
    intro cells store
    cases cells with
    | nil => rfl
    | cons cell cells =>
      simp only [writeRow]
      rw [ih, List.length_set]

theorem getElem?_writeRow (row : List Nat) :
    ∀ (cells : List Cell) (store : CellStore), row.Nodup → (∀ a ∈ row, a < store.length) →
      row.length = cells.length →
      ∀ c : Nat, ((row[c]?).bind fun a : Nat => (writeRow store row cells)[a]?) = cells[c]? := by
  induction row with
  | nil =>
    intro cells store _ _ hlen c
    cases cells with
    | nil => simp
    | cons _ _ => simp at hlen
  | cons a rest ih =>
    intro cells store hnd hvalid hlen c
    cases cells with
    | nil => simp at hlen
    | cons cell cells =>
      rw [List.nodup_cons] at hnd
      simp only [writeRow]
      have ha : a < store.length := hvalid a (List.mem_cons_self _ _)
      cases c with
      | zero =>
        simp only [List.getElem?_cons_zero, Option.some_bind]
        rw [getElem?_writeRow_of_not_mem rest cells _ a hnd.1]
        exact List.getElem?_set_self ha
      | succ c =>
        simp only [List.getElem?_cons_succ]
        refine ih cells _ hnd.2 ?_ (by simpa using hlen) c
        intro a₂ h₂
        rw [List.length_set]
        exact hvalid a₂ (List.mem_cons_of_mem _ h₂)

theorem getElem?_writeRows (rows : List (List Nat)) :
    ∀ (grid : List (List Cell)) (store : CellStore), rows.flatten.Nodup →
      (∀ a ∈ rows.flatten, a < store.length) →
      rows.map List.length = grid.map List.length →
      ∀ r c : Nat,
        (((rows[r]?).bind fun row => row[c]?).bind fun a : Nat =>
          (writeRows store rows grid)[a]?) = (grid[r]?).bind fun cells => cells[c]? := by
  induction rows with
  | nil =>
    intro grid store _ _ hshape r c
    cases grid with
    | nil => simp
    | cons _ _ => simp at hshape
  | cons row rows ih =>
    intro grid store hnd hvalid hshape r c
    cases grid with
    | nil => simp at hshape
    | cons cells grid =>
      simp only [List.map_cons, List.cons.injEq] at hshape
      simp only [List.flatten_cons] at hnd hvalid
      rw [List.nodup_append] at hnd
      simp only [writeRows]
      cases r with
      | zero =>
        simp only [List.getElem?_cons_zero, Option.some_bind]
        rw [← getElem?_writeRow row cells store hnd.1
          (fun a ha => hvalid a (List.mem_append_left _ ha)) hshape.1 c]
        cases hc : row[c]? with
        | none => rfl
        | some a =>
          simp only [Option.some_bind]
          refine getElem?_writeRows_of_not_mem rows grid _ a ?_
          intro hin
          exact hnd.2.2 (List.getElem?_mem hc) hin
      | succ r =>
        simp only [List.getElem?_cons_succ]
        refine ih grid _ hnd.2.1 ?_ hshape.2 r c
        intro a ha
        rw [length_writeRow]
        exact hvalid a (List.mem_append_right _ ha)

theorem cellAt_write (o : BoardObject) (store : CellStore) (b : Board)
    (hnd : o.board.flatten.Nodup) (hvalid : ∀ a ∈ o.board.flatten, a < store.length)
    (hshape : o.board.map List.length = b.board.map List.length) (r c : Nat) :
    o.cellAt (o.write store b) r c = b.cellAt r c := by
  rw [cellAt_eq, addressAt_eq]
  unfold write
  rw [getElem?_writeRows o.board b.board store hnd hvalid hshape r c]
  unfold Board.cellAt
  cases b.board[r]? <;> rfl

theorem modifyCell_shape (b : Board) (ref : CellRef) (f : Cell → Cell) :
    (b.modifyCell ref f).board.map List.length = b.board.map List.length := by
  unfold Board.modifyCell
  apply List.ext_getElem?
  intro i
  simp only [List.getElem?_map, List.getElem?_modify]
  cases b.board[i]? with
  | none => rfl
  | some row =>
    simp only [Option.map_some', Option.some.injEq]
    split
    · simp
    · rfl

theorem foldl_modifyCell_shape (f : Cell → Cell) (refs : List CellRef) (b : Board) :
    (refs.foldl (fun b ref => b.modifyCell ref f) b).board.map List.length =
      b.board.map List.length := by
  induction refs generalizing b with
  | nil => rfl
  | cons ref refs ih => rw [List.foldl_cons, ih, modifyCell_shape]

/-- For an instance that holds each of its objects once, the show step of a hint run on
the instance leaves in every cell object the state that the show step of the embedding
computes from the states read; so does the hide step. -/
theorem cellAt_hint_on_instance (o : BoardObject) (store : CellStore)
    (hnd : o.board.flatten.Nodup) (hvalid : ∀ a ∈ o.board.flatten, a < store.length) :
    (∀ tr tc r c, o.cellAt (o.handleHintCellClick store tr tc).1 r c =
        ((o.read store).handleHintCellClick tr tc).1.cellAt r c) ∧
      (∀ hintedCells r c, o.cellAt (o.hideCells store hintedCells) r c =
        ((o.read store).hideCells hintedCells).cellAt r c) := by
  constructor
  · intro tr tc r c
    refine cellAt_write o store _ hnd hvalid ?_ r c
    unfold Board.handleHintCellClick
    rw [foldl_modifyCell_shape, read_shape o store hvalid]
  · intro hintedCells r c
    refine cellAt_write o store _ hnd hvalid ?_ r c
    unfold Board.hideCells
    rw [foldl_modifyCell_shape, read_shape o store hvalid]

theorem revealCell_shape {recurse : Board → Nat → Nat → Except BoardError Board}
    (h : ∀ b tr tc b', recurse b tr tc = .ok b' →
      b'.board.map List.length = b.board.map List.length)
    (b : Board) (q : CellRef) (b' : Board) (hb : Board.revealCell recurse b q = .ok b') :
    b'.board.map List.length = b.board.map List.length := by
  cases hcell : b.cellAt q.1 q.2 with
  | none => simp [Board.revealCell, hcell] at hb
  | some cell =>
    rw [Board.revealCell_eq _ b q cell hcell] at hb
    split at hb
    · cases hb; rfl
    · split at hb
      · rw [h _ _ _ _ hb, modifyCell_shape]
      · cases hb
        exact modifyCell_shape _ _ _

theorem revealLoop_shape {recurse : Board → Nat → Nat → Except BoardError Board}
    (h : ∀ b tr tc b', recurse b tr tc = .ok b' →
      b'.board.map List.length = b.board.map List.length)
    (refs : List CellRef) (b b' : Board)
    (hb : refs.foldlM (Board.revealCell recurse) b = .ok b') :
    b'.board.map List.length = b.board.map List.length := by
  induction refs generalizing b with
  | nil => cases hb; rfl
  | cons q refs ih =>
    rw [List.foldlM_cons] at hb
    cases hstep : Board.revealCell recurse b q with
    | error e => rw [hstep] at hb; cases hb
    | ok b₁ =>
      rw [hstep] at hb
      rw [ih b₁ hb, revealCell_shape h b q b₁ hstep]

theorem revealSurroundingTargetCells_shape (n : Nat) :
    ∀ b tr tc b', Board.revealSurroundingTargetCells n b tr tc = .ok b' →
      b'.board.map List.length = b.board.map List.length := by
  induction n with
  | zero => intro b tr tc b' h; simp [Board.revealSurroundingTargetCells] at h
  | succ n ih =>
    intro b tr tc b' h
    cases hcell : b.cellAt tr tc with
    | none => simp [Board.revealSurroundingTargetCells, hcell] at h
    | some cell =>
      rw [Board.revealSurroundingTargetCells_succ _ b tr tc cell hcell] at h
      split at h
      · exact revealLoop_shape ih _ b b' h
      · cases h; rfl

/-- For an instance that holds each of its objects once, a reveal run on the instance
leaves in every cell object the state that the reveal of the embedding computes from the
states read. -/
theorem cellAt_reveal_on_instance (o : BoardObject) (store store' : CellStore)
    (hnd : o.board.flatten.Nodup) (hvalid : ∀ a ∈ o.board.flatten, a < store.length)
    (fuel tr tc : Nat) (h : o.revealSurroundingTargetCells store fuel tr tc = .ok store') :
    ∃ b', (o.read store).revealSurroundingTargetCells fuel tr tc = .ok b' ∧
      ∀ r c, o.cellAt store' r c = b'.cellAt r c := by
  unfold revealSurroundingTargetCells at h
  cases hrev : (o.read store).revealSurroundingTargetCells fuel tr tc with
  | error e => rw [hrev] at h; cases h
  | ok b' =>
    rw [hrev] at h
    cases h
    refine ⟨b', rfl, fun r c => cellAt_write o store b' hnd hvalid ?_ r c⟩
    rw [revealSurroundingTargetCells_shape fuel _ tr tc b' hrev, read_shape o store hvalid]

end BoardObject

end MineSweeper
